import Mathlib

set_option maxHeartbeats 1000000

/-!
Verification development for the logo-feedback web application in
`src/server.py`.  The Python source is shallowly embedded: every pure
computation of the handler code becomes an executable Lean definition, the
JSON document on disk becomes the inductive type `JVal`, the upload
directory becomes a list of filenames, and the best-effort I/O (file writes
and deletes that may fail) is driven by an explicit success oracle.
Python code that can raise an uncaught exception is modelled with `Option`
(`none` = the exception propagates).
-/

namespace GentleSmiles

/-- JSON values as produced by Python's `json.load`.  An `obj` stands for a
parsed Python dict (keys distinct, insertion order kept); numbers are
modelled as integers, which covers every value the application itself ever
writes. -/
inductive JVal where
  | null
  | bool (b : Bool)
  | num (n : Int)
  | str (s : String)
  | arr (xs : List JVal)
  | obj (kvs : List (String × JVal))

/-- Association-list lookup, the model of Python `dict.get` /
`dict.__contains__` on a parsed dict (first binding wins; a parsed dict has
distinct keys). -/
def lookupA {α : Type} : List (String × α) → String → Option α
  | [], _ => none
  | kv :: rest, k => if kv.1 = k then some kv.2 else lookupA rest k

/-- In-place update of the value stored under key `k`, the model of mutating
a record obtained from a Python dict: every other binding and the binding
order are untouched. -/
def updAssoc {α : Type} (m : List (String × α)) (k : String) (f : α → α) :
    List (String × α) :=
  m.map (fun kv => if kv.1 = k then (kv.1, f kv.2) else kv)

/-- Python `value.get(key, default)` on a parsed-JSON object. -/
def jGetD (o : List (String × JVal)) (k : String) (d : JVal) : JVal :=
  (lookupA o k).getD d

/-- Python `list(x)` applied to a parsed-JSON value: lists are copied,
strings iterate to their one-character strings, dicts iterate to their keys;
any other value raises `TypeError`, modelled as `none`. -/
def pyList : JVal → Option (List JVal)
  | .arr xs => some xs
  | .str s => some (s.data.map (fun c => .str (String.mk [c])))
  | .obj kvs => some (kvs.map (fun kv => .str kv.1))
  | _ => none

/-- One comment as held in memory after `_load_designs`: a dict with exactly
the keys `text` and `replies`, where `replies` is a Python list.  The code
stores the `text` and reply values unchanged, so both stay `JVal`s. -/
structure CommentRec where
  text : JVal
  replies : List JVal

/-- One design record as held in memory after `_load_designs`: a dict with
exactly the keys `images` (a Python list) and `comments` (a list of
normalised comment dicts). -/
structure DesignRecord where
  images : List JVal
  comments : List CommentRec

/-- The in-memory design store: the parsed `comments.json` dict after
normalisation, keys in insertion order. -/
abbrev Designs := List (String × DesignRecord)

/-- `List.mapM` for `Option`, written out so that the evaluation order and
failure propagation of the Python `for` loops (an exception aborts the whole
load) are explicit. -/
def optMapList {α β : Type} (f : α → Option β) : List α → Option (List β)
  | [] => some []
  | a :: as =>
    match f a, optMapList f as with
    | some b, some bs => some (b :: bs)
    | _, _ => none

/-- Decimal digit character. -/
def digitChar : Nat → Char
  | 0 => '0' | 1 => '1' | 2 => '2' | 3 => '3' | 4 => '4'
  | 5 => '5' | 6 => '6' | 7 => '7' | 8 => '8' | _ => '9'

/-- Decimal digits of a natural number, most significant first (the digits
Python's `str`/f-string interpolation produces for a non-negative int). -/
def natDigits (n : Nat) : List Char :=
  if _h : n < 10 then [digitChar n]
  else natDigits (n / 10) ++ [digitChar (n % 10)]
termination_by n
decreasing_by exact Nat.div_lt_self (by omega) (by omega)

/-- Python `str(n)` for a non-negative int. -/
def natToStr (n : Nat) : String := String.mk (natDigits n)

/-- Python `str(n)` for an int. -/
def intStr (n : Int) : String :=
  if n < 0 then "-" ++ natToStr n.natAbs else natToStr n.natAbs

mutual
/-- Python `repr` of a parsed-JSON value, as used (through `str`) on non-dict
comment entries.  Quoting of strings uses `'`; escaping of quote characters
inside the string is not modelled (no claim exercises it). -/
def pyRepr : JVal → String
  | .null => "None"
  | .bool true => "True"
  | .bool false => "False"
  | .num n => intStr n
  | .str s => "\x27" ++ s ++ "\x27"
  | .arr xs => "[" ++ pyReprList xs ++ "]"
  | .obj kvs => "\x7b" ++ pyReprObj kvs ++ "\x7d"

/-- `repr` of the elements of a Python list, comma separated. -/
def pyReprList : List JVal → String
  | [] => ""
  | [v] => pyRepr v
  | v :: vs => pyRepr v ++ ", " ++ pyReprList vs

/-- `repr` of the bindings of a Python dict, comma separated. -/
def pyReprObj : List (String × JVal) → String
  | [] => ""
  | [kv] => "\x27" ++ kv.1 ++ "\x27: " ++ pyRepr kv.2
  | kv :: kvs => "\x27" ++ kv.1 ++ "\x27: " ++ pyRepr kv.2 ++ ", " ++ pyReprObj kvs
end

/-- Python `str(x)` on a parsed-JSON value: strings are returned unchanged,
everything else renders like `repr`. -/
def pyStr : JVal → String
  | .str s => s
  | v => pyRepr v

/-- Python `s.strip()` (ASCII-whitespace model): whitespace removed from both
ends. -/
def pyStrip (s : String) : String :=
  String.mk (((s.data.dropWhile Char.isWhitespace).reverse.dropWhile
    Char.isWhitespace).reverse)

/-- Normalisation of one comment entry inside `_load_designs`: a dict keeps
its `text` value and the `list(...)` of its `replies` (raising, hence `none`,
when the `replies` value is not iterable); any other value is stringified and
gets an empty reply list. -/
def normEntry : JVal → Option CommentRec
  | .obj o =>
    match pyList (jGetD o "replies" (.arr [])) with
    | some rs => some ⟨jGetD o "text" (.str ""), rs⟩
    | none => none
  | v => some ⟨.str (pyStr v), []⟩

/-- `_load_designs`, one key/value pair: a dict containing `images` is the
new format and keeps its (iterated) image list while normalising its
comments; any other value is the legacy flat format, where the key is the
image filename and the value, only when it is a Python list, is the comment
list. -/
def loadValue (key : String) (v : JVal) : Option DesignRecord :=
  match v with
  | .obj o =>
    if (lookupA o "images").isSome then
      match pyList (jGetD o "images" (.arr [])) with
      | some imgs =>
        match pyList (jGetD o "comments" (.arr [])) with
        | some entries =>
          match optMapList normEntry entries with
          | some cs => some ⟨imgs, cs⟩
          | none => none
        | none => none
      | none => none
    else some ⟨[.str key], []⟩
  | .arr entries =>
    match optMapList normEntry entries with
    | some cs => some ⟨[.str key], cs⟩
    | none => none
  | _ => some ⟨[.str key], []⟩

/-- `_load_designs` applied to the successfully parsed JSON document.  A
non-dict document makes `raw.items()` raise (the `try` in the source guards
only the parse itself), hence `none`; otherwise each entry is converted in
order. -/
def load_designs (raw : JVal) : Option Designs :=
  match raw with
  | .obj kvs =>
      optMapList (fun kv => (loadValue kv.1 kv.2).map (fun r => (kv.1, r))) kvs
  | _ => none

/-- JSON encoding of a normalised comment, as `json.dump` writes it. -/
def encodeComment (c : CommentRec) : JVal :=
  .obj [("text", c.text), ("replies", .arr c.replies)]

/-- JSON encoding of a design record, as `json.dump` writes it. -/
def encodeRecord (r : DesignRecord) : JVal :=
  .obj [("images", .arr r.images), ("comments", .arr (r.comments.map encodeComment))]

/-- `_save_designs`: the JSON document `json.dump` writes for the in-memory
store. -/
def save_designs (m : Designs) : JVal :=
  .obj (m.map (fun kv => (kv.1, encodeRecord kv.2)))

/-- `os.path.basename` on POSIX: everything after the last `/`. -/
def pyBasename (s : String) : String :=
  String.mk ((s.data.reverse.takeWhile (fun c => c ≠ '/')).reverse)

/-- `os.path.splitext` on a path without separators (the code always applies
`basename` first): split at the last dot, provided a non-dot character
precedes it; otherwise the extension is empty. -/
def pySplitext (s : String) : String × String :=
  match s.data.reverse.dropWhile (fun c => c ≠ '.') with
  | [] => (s, "")
  | _ :: restRev =>
    if restRev.any (fun c => c ≠ '.') then
      (String.mk restRev.reverse,
       String.mk ('.' :: (s.data.reverse.takeWhile (fun c => c ≠ '.')).reverse))
    else (s, "")

/-- The character filter of the slug computation: Python `ch.isalnum()`
(modelled for ASCII) or dash or underscore. -/
def slugKeep (c : Char) : Bool := c.isAlphanum || c == '-' || c == '_'

/-- Python `s.strip(\x27_-\x27)`: dashes and underscores removed from both
ends. -/
def stripDU (cs : List Char) : List Char :=
  ((cs.dropWhile (fun c => c = '_' ∨ c = '-')).reverse.dropWhile
    (fun c => c = '_' ∨ c = '-')).reverse

/-- The slug `_handle_upload` builds from the first file's base name:
keep alphanumerics, dashes and underscores, strip dashes/underscores from
both ends, and fall back to `"design"` when nothing is left. -/
def pySlug (baseName : String) : String :=
  let stripped := stripDU (baseName.data.filter slugKeep)
  if stripped.isEmpty then "design" else String.mk stripped

/-- The sequence of design-id candidates tried by the collision loop:
the slug itself, then `slug_1`, `slug_2`, … -/
def idCand (slug : String) (k : Nat) : String :=
  if k = 0 then slug else slug ++ "_" ++ natToStr k

/-- The sequence of destination-filename candidates tried by the upload save
loop: the raw name itself, then `name_1ext`, `name_2ext`, … -/
def fileCand (raw name ext : String) (k : Nat) : String :=
  if k = 0 then raw else name ++ "_" ++ natToStr k ++ ext

/-- The `while candidate in taken` loop shared by the design-id and the
destination-filename computation: starting from candidate index `k`, return
the first candidate not in `taken`.  The fuel only bounds the search; with
`taken.length + 1` units it never runs out for an injective candidate
sequence. -/
def freshLoop (taken : List String) (cand : Nat → String) : Nat → Nat → String
  | k, 0 => cand k
  | k, fuel + 1 => if cand k ∈ taken then freshLoop taken cand (k + 1) fuel else cand k

/-- First candidate of the sequence that does not collide with `taken`. -/
def freshFrom (taken : List String) (cand : Nat → String) : String :=
  freshLoop taken cand 0 (taken.length + 1)

/-- The design-id computation of `_handle_upload` (named as in the spec):
slug of the base name, de-duplicated against the existing ids by numeric
suffixes. -/
def generate_design_id (baseName : String) (existing : List String) : String :=
  freshFrom existing (idCand (pySlug baseName))

/-- Written from the SPEC's words, for comparison with `generate_design_id`:
"strips non-alphanumeric/dash/underscore characters from the base name,
defaults to `design` if empty" — with no further transformation. -/
def specSlug (baseName : String) : String :=
  let filtered := baseName.data.filter slugKeep
  if filtered.isEmpty then "design" else String.mk filtered

/-- Digit run of Python `int(...)`: digits with single underscores allowed
between digits, accumulating the value. -/
def pyIntCore : Nat → List Char → Option Nat
  | acc, [] => some acc
  | acc, c :: cs =>
    if c.isDigit then pyIntCore (acc * 10 + (c.toNat - 48)) cs
    else if c = '_' then
      match cs with
      | d :: cs2 =>
        if d.isDigit then pyIntCore (acc * 10 + (d.toNat - 48)) cs2 else none
      | [] => none
    else none

/-- Nonempty digit run of Python `int(...)`. -/
def pyIntDigits : List Char → Option Nat
  | [] => none
  | c :: cs => if c.isDigit then pyIntCore (c.toNat - 48) cs else none

/-- Python `int(s)` (ASCII model): optional surrounding whitespace, optional
sign, decimal digits; `none` models the `ValueError`. -/
def pyInt (s : String) : Option Int :=
  match ((s.data.dropWhile Char.isWhitespace).reverse.dropWhile
      Char.isWhitespace).reverse with
  | '+' :: cs => (pyIntDigits cs).map Int.ofNat
  | '-' :: cs => (pyIntDigits cs).map (fun n => -(n : Int))
  | cs => (pyIntDigits cs).map Int.ofNat

/-- Update the element at index `i` (no-op when out of range), the model of
mutating one element of a Python list in place. -/
def listModify {α : Type} : List α → Nat → (α → α) → List α
  | [], _, _ => []
  | a :: as, 0, f => f a :: as
  | a :: as, n + 1, f => a :: listModify as n f

/-- `_handle_comment` acting on the store.  The three arguments mirror
`params.get(..., [None])[0]` / `params.get(..., [\x27\x27])[0]`: `none` is a
missing field.  Returns the response status and the resulting store
content. -/
def handle_comment (ds : Designs) (design_id comment : Option String) :
    Nat × Designs :=
  let c := pyStrip (comment.getD "")
  if design_id.getD "" = "" ∨ c = "" then (303, ds)
  else
    match lookupA ds (design_id.getD "") with
    | none => (303, ds)
    | some _ =>
      (303, updAssoc ds (design_id.getD "")
        (fun r => ⟨r.images, r.comments ++ [⟨.str c, []⟩]⟩))

/-- `_handle_reply` acting on the store.  A comment index that fails to parse
becomes `-1` (hence out of range); the loaded store guarantees every comment
is a dict, so the `isinstance` fallback branch of the source is
unreachable. -/
def handle_reply (ds : Designs) (design_id reply comment_index : Option String) :
    Designs :=
  let replyText := pyStrip (reply.getD "")
  if design_id.getD "" = "" ∨ replyText = "" ∨ comment_index = none then ds
  else
    let idx : Int := (pyInt (comment_index.getD "")).getD (-1)
    match lookupA ds (design_id.getD "") with
    | none => ds
    | some r =>
      if 0 ≤ idx ∧ idx < (r.comments.length : Int) then
        updAssoc ds (design_id.getD "")
          (fun rec => ⟨rec.images, listModify rec.comments idx.toNat
            (fun c => ⟨c.text, c.replies ++ [.str replyText]⟩)⟩)
      else ds

/-- The file-deletion loop of `_handle_delete`: for each image value (which
must be a string, or `os.path.basename` raises — `none`), remove its base
name from the upload directory when it exists and the best-effort removal
succeeds (`removeOk`); failures are swallowed. -/
def deleteImages (removeOk : String → Bool) :
    List JVal → List String → Option (List String)
  | [], fs => some fs
  | .str s :: rest, fs =>
    let t := pyBasename s
    deleteImages removeOk rest
      (if t ∈ fs ∧ removeOk t then fs.filter (fun f => f ≠ t) else fs)
  | _ :: _, _ => none

/-- `_handle_delete` acting on the store and the upload directory (a list of
distinct filenames).  Returns status, store content and directory content;
`none` models an uncaught exception (non-string image value). -/
def handle_delete (ds : Designs) (fs : List String) (design_id : Option String)
    (removeOk : String → Bool) : Option (Nat × Designs × List String) :=
  if design_id.getD "" = "" then some (303, ds, fs)
  else
    match lookupA ds (design_id.getD "") with
    | none => some (303, ds, fs)
    | some r =>
      (deleteImages removeOk r.images fs).map
        (fun fs2 => (303, ds.filter (fun kv => kv.1 ≠ design_id.getD ""), fs2))

/-- Is `b` a UTF-8 continuation byte? -/
def isCont (b : Nat) : Bool := 0x80 ≤ b && b ≤ 0xBF

/-- Valid second byte for a three-byte sequence led by `b` (excludes overlong
encodings and surrogates, as CPython does). -/
def cont3ok (b b2 : Nat) : Bool :=
  (if b = 0xE0 then 0xA0 ≤ b2 else 0x80 ≤ b2) &&
  (if b = 0xED then b2 ≤ 0x9F else b2 ≤ 0xBF)

/-- Valid second byte for a four-byte sequence led by `b` (excludes overlong
encodings and code points beyond U+10FFFF, as CPython does). -/
def cont4ok (b b2 : Nat) : Bool :=
  (if b = 0xF0 then 0x90 ≤ b2 else 0x80 ≤ b2) &&
  (if b = 0xF4 then b2 ≤ 0x8F else b2 ≤ 0xBF)

/-- One step of CPython's incremental UTF-8 decoder with an error handler
that emits `err` once per error event: decode one character, or consume the
valid prefix of an invalid/truncated sequence, emit `err`, and resume at the
first offending byte.  Returns the emitted characters and the remaining
bytes; at least one byte is always consumed. -/
def utf8Step (err : List Char) : List Nat → List Char × List Nat
  | [] => ([], [])
  | b :: rest =>
    if b < 0x80 then ([Char.ofNat b], rest)
    else if b < 0xC2 then (err, rest)
    else if b < 0xE0 then
      match rest with
      | [] => (err, [])
      | b2 :: rest2 =>
        if isCont b2 then ([Char.ofNat ((b - 0xC0) * 64 + (b2 - 0x80))], rest2)
        else (err, rest)
    else if b < 0xF0 then
      match rest with
      | [] => (err, [])
      | b2 :: rest2 =>
        if cont3ok b b2 then
          match rest2 with
          | [] => (err, [])
          | b3 :: rest3 =>
            if isCont b3 then
              ([Char.ofNat ((b - 0xE0) * 4096 + (b2 - 0x80) * 64 + (b3 - 0x80))],
               rest3)
            else (err, rest2)
        else (err, rest)
    else if b < 0xF5 then
      match rest with
      | [] => (err, [])
      | b2 :: rest2 =>
        if cont4ok b b2 then
          match rest2 with
          | [] => (err, [])
          | b3 :: rest3 =>
            if isCont b3 then
              match rest3 with
              | [] => (err, [])
              | b4 :: rest4 =>
                if isCont b4 then
                  ([Char.ofNat ((b - 0xF0) * 262144 + (b2 - 0x80) * 4096 +
                    (b3 - 0x80) * 64 + (b4 - 0x80))], rest4)
                else (err, rest3)
            else (err, rest2)
        else (err, rest)
    else (err, rest)

/-- Driver of the decoder; the fuel (one unit per input byte suffices, since
every step consumes at least one byte) only bounds the iteration. -/
def utf8DecAux (err : List Char) : Nat → List Nat → List Char
  | 0, _ => []
  | _, [] => []
  | fuel + 1, b :: rest =>
    let st := utf8Step err (b :: rest)
    st.1 ++ utf8DecAux err fuel st.2

/-- CPython's UTF-8 decoder with an error handler emitting `err` per error
event. -/
def utf8Dec (err : List Char) (bs : List Nat) : List Char :=
  utf8DecAux err bs.length bs

/-- `payload.decode(\x27utf-8\x27, errors=\x27ignore\x27)` as used by
`_parse_multipart`: undecodable byte sequences are dropped. -/
def pyDecodeUtf8Ignore (bs : List Nat) : String := String.mk (utf8Dec [] bs)

/-- Written from the SPEC's words, for comparison: decoding in which byte
sequences that fail to decode are *replaced* (one U+FFFD per error event,
the `errors=\x27replace\x27 ` behaviour the spec describes). -/
def specDecodeUtf8Replace (bs : List Nat) : String :=
  String.mk (utf8Dec ['�'] bs)

/-- One uploaded file as stored by the multipart parser: the dict
`\x7bfilename, content\x7d` with the content bytes. -/
structure FileItem where
  filename : String
  content : List Nat

/-- A form-field value as produced by `_parse_multipart`: Python `None` (a
text part whose decoded payload was `None`), a decoded string, a file dict,
or the list accumulated for a repeated field name. -/
inductive FormVal where
  | pynone
  | str (s : String)
  | file (fi : FileItem)
  | list (items : List FormVal)

/-- One part of the parsed MIME message, i.e. the slice of the `email`
package output that `_parse_multipart` consumes: the `Content-Disposition`
header value (`""` when absent), the `name` parameter, the filename, and the
decoded payload bytes. -/
structure Part where
  disposition : String
  name : Option String
  filename : Option String
  payload : Option (List Nat)

/-- Does `needle` occur as a contiguous sublist starting at some suffix? -/
def subAt (needle : List Char) : List Char → Bool
  | [] => needle.isEmpty
  | h :: t => needle.isPrefixOf (h :: t) || subAt needle t

/-- Substring test, Python's `needle in haystack` on strings. -/
def containsSub (haystack needle : String) : Bool :=
  subAt needle.data haystack.data

/-- The per-part logic of `_parse_multipart`: skip parts without a
`form-data` disposition or without a name; a part with a filename becomes a
file dict (missing payload becomes `b""`); otherwise the payload bytes are
decoded with errors ignored, and a missing payload stays `None`. -/
def partItem (p : Part) : Option (String × FormVal) :=
  if ¬ containsSub p.disposition "form-data" then none
  else
    match p.name with
    | none => none
    | some n =>
      if n = "" then none
      else
        match p.filename with
        | some fn => some (n, .file ⟨fn, p.payload.getD []⟩)
        | none =>
          match p.payload with
          | some bs => some (n, .str (pyDecodeUtf8Ignore bs))
          | none => some (n, .pynone)

/-- Accumulation of a parsed item into the result dict: a fresh name is
appended, a second value under the same name forms a two-element list,
further values are appended to that list, and a stored `None`
(indistinguishable from a missing key via `dict.get`) is overwritten in
place. -/
def addField (acc : List (String × FormVal)) (k : String) (v : FormVal) :
    List (String × FormVal) :=
  match lookupA acc k with
  | none => acc ++ [(k, v)]
  | some .pynone => updAssoc acc k (fun _ => v)
  | some (.list l) => updAssoc acc k (fun _ => .list (l ++ [v]))
  | some _ => updAssoc acc k (fun old => .list [old, v])

/-- `_parse_multipart` on the list of message parts. -/
def parse_multipart (parts : List Part) : List (String × FormVal) :=
  parts.foldl
    (fun acc p =>
      match partItem p with
      | none => acc
      | some kv => addField acc kv.1 kv.2) []

/-- Python truthiness of a form value: `None`, `""` and `[]` are falsy; a
file dict (which always has two keys) is truthy. -/
def pyTruthy : FormVal → Bool
  | .pynone => false
  | .str s => s ≠ ""
  | .file _ => true
  | .list l => ¬ l.isEmpty

/-- Python `a or b` on two optional form values. -/
def pyOr (a b : Option FormVal) : Option FormVal :=
  match a with
  | some v => if pyTruthy v then some v else b
  | none => b

/-- Normalisation of the file field to a list of items. -/
def toItems : FormVal → List FormVal
  | .list l => l
  | v => [v]

/-- The filter of `_handle_upload`: keep dict items with a truthy
filename. -/
def asFileItem : FormVal → Option FileItem
  | .file fi => if fi.filename = "" then none else some fi
  | _ => none

/-- The save loop of `_handle_upload` over the upload directory `fs`: each
file gets the first non-colliding destination name; a successful write
(oracle `writeOk`) records the name and creates the file, a failed write is
skipped and leaves no file.  Returns the saved names in order and the
resulting directory. -/
def saveFiles (writeOk : String → Bool) :
    List FileItem → List String → List String × List String
  | [], fs => ([], fs)
  | fi :: rest, fs =>
    let raw := pyBasename fi.filename
    let ne := pySplitext raw
    let dest := freshFrom fs (fileCand raw ne.1 ne.2)
    if writeOk dest then
      let out := saveFiles writeOk rest (dest :: fs)
      (dest :: out.1, out.2)
    else saveFiles writeOk rest fs

/-- Result of `_handle_upload`: response status, store content, upload
directory content. -/
structure UploadOut where
  status : Nat
  designs : Designs
  fs : List String

/-- The tail of `_handle_upload` once the valid file items are known: HTTP
400 when no valid item remains; otherwise the design id is derived from the
first file's base name, the files are saved under collision-free names and,
when at least one write succeeded, a single fresh design record is
appended. -/
def uploadWithItems (ds : Designs) (fs : List String) (writeOk : String → Bool) :
    List FileItem → UploadOut
  | [] => ⟨400, ds, fs⟩
  | i0 :: rest =>
    if (saveFiles writeOk (i0 :: rest) fs).1.isEmpty then
      ⟨303, ds, (saveFiles writeOk (i0 :: rest) fs).2⟩
    else
      ⟨303, ds ++ [(generate_design_id (pySplitext (pyBasename i0.filename)).1
          (ds.map (fun kv => kv.1)),
        ⟨(saveFiles writeOk (i0 :: rest) fs).1.map JVal.str, []⟩)],
        (saveFiles writeOk (i0 :: rest) fs).2⟩

/-- `_handle_upload` on the parsed form, the loaded store and the upload
directory.  HTTP 400 when the file field (field `file`, falling back to
`design`) is missing or falsy. -/
def handle_upload (form : List (String × FormVal)) (ds : Designs)
    (fs : List String) (writeOk : String → Bool) : UploadOut :=
  match pyOr (lookupA form "file") (lookupA form "design") with
  | none => ⟨400, ds, fs⟩
  | some v =>
    if ¬ pyTruthy v then ⟨400, ds, fs⟩
    else uploadWithItems ds fs writeOk ((toItems v).filterMap asFileItem)

/-- `html.escape` on one character (quote=True, the default used by the
source). -/
def escCharL (c : Char) : List Char :=
  if c = '&' then "&amp;".data
  else if c = '<' then "&lt;".data
  else if c = '>' then "&gt;".data
  else if c = '"' then "&quot;".data
  else if c = '\x27' then "&#x27;".data
  else [c]

/-- `html.escape`. -/
def pyEscape (s : String) : String := String.mk (s.data.flatMap escCharL)

/-- Uppercase hexadecimal digit. -/
def hexDigit (n : Nat) : Char :=
  match n with
  | 0 => '0' | 1 => '1' | 2 => '2' | 3 => '3' | 4 => '4' | 5 => '5' | 6 => '6'
  | 7 => '7' | 8 => '8' | 9 => '9' | 10 => 'A' | 11 => 'B' | 12 => 'C'
  | 13 => 'D' | 14 => 'E' | _ => 'F'

/-- UTF-8 bytes of a code point. -/
def charUtf8 (n : Nat) : List Nat :=
  if n < 0x80 then [n]
  else if n < 0x800 then [0xC0 + n / 64, 0x80 + n % 64]
  else if n < 0x10000 then [0xE0 + n / 4096, 0x80 + n / 64 % 64, 0x80 + n % 64]
  else [0xF0 + n / 262144, 0x80 + n / 4096 % 64, 0x80 + n / 64 % 64, 0x80 + n % 64]

/-- Characters `urllib.parse.quote` passes through with the default
`safe="/"`. -/
def quoteSafe (c : Char) : Bool :=
  c.isAlphanum || c == '_' || c == '.' || c == '-' || c == '~' || c == '/'

/-- `urllib.parse.quote` on one character: safe characters pass, everything
else is percent-encoded byte-wise. -/
def quoteCharL (c : Char) : List Char :=
  if quoteSafe c then [c]
  else (charUtf8 c.toNat).flatMap
    (fun b => ['%', hexDigit (b / 16 % 16), hexDigit (b % 16)])

/-- `urllib.parse.quote` with the default safe characters. -/
def pyQuote (s : String) : String := String.mk (s.data.flatMap quoteCharL)

/-- The gallery line for one image filename: link plus `img` with the quoted
URL and the escaped filename as alt text. -/
def imgLine (s : String) : String :=
  "        <a href=\"/uploads/" ++ pyQuote s ++
  "\" target=\"_blank\"><img src=\"/uploads/" ++ pyQuote s ++ "\" alt=\"" ++
  pyEscape s ++ "\" /></a>"

/-- Rendering of one image value; `urllib.parse.quote` raises on a non-string
value, hence `none`. -/
def imgLineOf : JVal → Option String
  | .str s => some (imgLine s)
  | _ => none

/-- The nested reply list of one comment (absent when there are no
replies); each reply is stringified and escaped. -/
def replyBlock (replies : List JVal) : List String :=
  if replies.isEmpty then []
  else
    ["            <ul class=\"replies\">"] ++
    replies.map (fun rep => "              <li>" ++ pyEscape (pyStr rep) ++ "</li>") ++
    ["            </ul>"]

/-- The item line of one comment (the line that embeds the escaped comment
body). -/
def commentTextLine (t : String) : String :=
  "          <li><span class=\"comment-text\">" ++ pyEscape t ++ "</span>"

/-- The rendered lines of one comment: item line, reply block, inline reply
form carrying the design id and the positional index.  `html.escape` raises
on a non-string `text` value, hence `none`. -/
def commentLines (did : String) (idx : Nat) (c : CommentRec) :
    Option (List String) :=
  match c.text with
  | .str t =>
    some ([commentTextLine t] ++ replyBlock c.replies ++
      ["            <form action=\"/reply\" method=\"post\" class=\"reply-form\">",
       "              <input type=\"hidden\" name=\"design_id\" value=\"" ++
         pyEscape did ++ "\">",
       "              <input type=\"hidden\" name=\"comment_index\" value=\"" ++
         natToStr idx ++ "\">",
       "              <textarea name=\"reply\" placeholder=\"Write a reply...\" required></textarea>",
       "              <button type=\"submit\">Reply</button>",
       "            </form>",
       "          </li>"])
  | _ => none

/-- The rendered lines of all comments of one design, with their positional
indices. -/
def commentsLinesAux (did : String) : Nat → List CommentRec → Option (List String)
  | _, [] => some []
  | i, c :: cs =>
    match commentLines did i c, commentsLinesAux did (i + 1) cs with
    | some ls, some rest => some (ls ++ rest)
    | _, _ => none

/-- The rendered lines of one design entry of the gallery. -/
def designLines (did : String) (r : DesignRecord) : Option (List String) :=
  match optMapList imgLineOf r.images, commentsLinesAux did 0 r.comments with
  | some imgs, some cls =>
    some (["    <div class=\"design\">", "      <div class=\"design-images\">"] ++
      imgs ++
      ["      </div>", "      <div class=\"comments\">", "        <h3>Feedback</h3>"] ++
      (if r.comments.isEmpty then [] else
        ["        <ul>"] ++ cls ++ ["        </ul>"]) ++
      ["      </div>",
       "      <form action=\"/comment\" method=\"post\" class=\"comment-form\">",
       "        <input type=\"hidden\" name=\"design_id\" value=\"" ++
         pyEscape did ++ "\">",
       "        <textarea name=\"comment\" placeholder=\"Leave your feedback here...\" required></textarea>",
       "        <button type=\"submit\">Submit</button>",
       "      </form>",
       "      <form action=\"/delete\" method=\"post\" class=\"delete-form\" onsubmit=\"return confirm(\x27Delete this design and all comments?\x27);\">",
       "        <input type=\"hidden\" name=\"design_id\" value=\"" ++
         pyEscape did ++ "\">",
       "        <button type=\"submit\">Delete</button>",
       "      </form>",
       "    </div>"])
  | _, _ => none

/-- The rendered lines of the whole gallery, in store order. -/
def designsLinesAux : Designs → Option (List String)
  | [] => some []
  | (did, r) :: rest =>
    match designLines did r, designsLinesAux rest with
    | some a, some b => some (a ++ b)
    | _, _ => none

/-- The static page head and upload form, verbatim from the source. -/
def headerLines : List String :=
  ["<!DOCTYPE html>",
   "<html lang=\"en\">",
   "<head>",
   "  <meta charset=\"UTF-8\">",
   "  <meta name=\"viewport\" content=\"width=device-width, initial-scale=1.0\">",
   "  <title>Gentle Healthy Smiles - Logo Feedback</title>",
   "  <link rel=\"stylesheet\" href=\"/static/styles.css\">",
   "</head>",
   "<body>",
   "  <h1>Gentle Healthy Smiles — Logo Design Feedback</h1>",
   "  <p class=\"tagline\">View designs below and leave your gentle feedback.</p>",
   "  <section class=\"upload-section\">",
   "    <h2>Upload a New Design</h2>",
   "    <form action=\"/upload\" method=\"post\" enctype=\"multipart/form-data\" id=\"upload-form\">",
   "      <label id=\"drop-zone\">",
   "        <span>Choose Files</span>",
   "        <input type=\"file\" name=\"file\" accept=\"image/*\" multiple required>",
   "      </label>",
   "      <button type=\"submit\">Upload</button>",
   "      <p class=\"drop-message\">Drag & drop files here</p>",
   "    </form>",
   "  </section>",
   "  <section class=\"gallery\">"]

/-- The static drag-and-drop script, verbatim from the source. -/
def scriptLines : List String :=
  ["<script>",
   "  const dropZone = document.getElementById(\"drop-zone\");",
   "  const fileInput = dropZone.querySelector(\"input[type=file]\");",
   "  dropZone.addEventListener(\"dragover\", (e) => \x7b e.preventDefault(); dropZone.classList.add(\"dragover\"); \x7d);",
   "  dropZone.addEventListener(\"dragleave\", () => \x7b dropZone.classList.remove(\"dragover\"); \x7d);",
   "  dropZone.addEventListener(\"drop\", (e) => \x7b",
   "    e.preventDefault(); dropZone.classList.remove(\"dragover\");",
   "    const files = e.dataTransfer.files;",
   "    if (files.length) \x7b fileInput.files = files; document.getElementById(\"upload-form\").submit(); \x7d",
   "  \x7d);",
   "</script>"]

/-- All lines of the index page built by `_serve_index` for the given store
state. -/
def indexLines (ds : Designs) : Option (List String) :=
  (designsLinesAux ds).map (fun body =>
    headerLines ++
    (if ds.isEmpty then
      ["    <p class=\"no-designs\">No designs uploaded yet. Use the form above or drag files into the drop zone to add the first logo design.</p>"]
     else []) ++
    body ++
    ["  </section>"] ++ scriptLines ++ ["</body>", "</html>"])

/-- The index document of `_serve_index`: the lines joined with newlines. -/
def renderIndex (ds : Designs) : Option String :=
  (indexLines ds).map (fun ls => String.intercalate "\n" ls)

/-- No character of the string is a raw angle bracket. -/
def noAngle (s : String) : Bool :=
  s.data.all (fun c => c ≠ '<' && c ≠ '>')

/-- Well-formedness check used in theorem hypotheses: every image value and
every comment text of the record is a string (which is what
`_load_designs` produces for data written by the handlers). -/
def strishRecord (r : DesignRecord) : Bool :=
  r.images.all (fun im => match im with | .str _ => true | _ => false) &&
  r.comments.all (fun c => match c.text with | .str _ => true | _ => false)

/-- Hypothesis check for the legacy-load claim: a comment entry of a legacy
document is either a bare string or a dict whose `replies` value (when
present) is iterable. -/
def legacyEntryB : JVal → Bool
  | .str _ => true
  | .obj o => (pyList (jGetD o "replies" (.arr []))).isSome
  | _ => false

/-- Hypothesis check for the legacy-load claim: one value of a store document
in either legacy shape — a flat comment list, or a new-format dict (an
`images` key with an iterable value, an iterable `comments` value) whose
comment entries may be bare strings. -/
def legacyValB : JVal → Bool
  | .arr entries => entries.all legacyEntryB
  | .obj o =>
    (lookupA o "images").isSome &&
    (pyList (jGetD o "images" (.arr []))).isSome &&
    (match pyList (jGetD o "comments" (.arr [])) with
     | some entries => entries.all legacyEntryB
     | none => false)
  | _ => false

/-- Is the form value exactly the string `s`? -/
def strAtom (s : String) : FormVal → Prop
  | .str s2 => s = s2
  | _ => False

/-- Does the string `s` occur among the value(s) stored under a form field
(a single value, or an element of an accumulated list)? -/
def strMemV (s : String) : FormVal → Prop
  | .list l => ∃ v ∈ l, strAtom s v
  | v => strAtom s v

/-! ## Helper lemmas -/

theorem lookupA_updAssoc_self {α : Type} (m : List (String × α)) (k : String)
    (f : α → α) : lookupA (updAssoc m k f) k = (lookupA m k).map f := by
  induction m with
  | nil => rfl
  | cons kv rest ih =>
    simp only [updAssoc, List.map_cons] at ih ⊢
    by_cases h : kv.1 = k
    · simp [lookupA, h]
    · simp [lookupA, h, ih]

theorem lookupA_updAssoc_other {α : Type} (m : List (String × α)) (k k2 : String)
    (f : α → α) (h : k2 ≠ k) : lookupA (updAssoc m k f) k2 = lookupA m k2 := by
  induction m with
  | nil => rfl
  | cons kv rest ih =>
    simp only [updAssoc, List.map_cons] at ih ⊢
    by_cases hk : kv.1 = k
    · have hne : kv.1 ≠ k2 := by rw [hk]; exact fun e => h e.symm
      simp [lookupA, hk, hne, Ne.symm h, ih]
    · by_cases h2 : kv.1 = k2
      · simp [lookupA, hk, h2, h]
      · simp [lookupA, hk, h2, ih]

theorem listModify_length {α : Type} (l : List α) (i : Nat) (f : α → α) :
    (listModify l i f).length = l.length := by
  induction l generalizing i with
  | nil => rfl
  | cons a as ih =>
    cases i with
    | zero => rfl
    | succ n => simp [listModify, ih]

theorem listModify_get_self {α : Type} (l : List α) (i : Nat) (f : α → α)
    (a : α) (h : l[i]? = some a) : (listModify l i f)[i]? = some (f a) := by
  induction l generalizing i with
  | nil => simp at h
  | cons x as ih =>
    cases i with
    | zero => simp at h; simp [listModify, h]
    | succ n => simp at h; simpa [listModify] using ih n h

theorem listModify_get_other {α : Type} (l : List α) (i j : Nat) (f : α → α)
    (h : j ≠ i) : (listModify l i f)[j]? = l[j]? := by
  induction l generalizing i j with
  | nil => rfl
  | cons x as ih =>
    cases i with
    | zero =>
      cases j with
      | zero => exact absurd rfl h
      | succ m => simp [listModify]
    | succ n =>
      cases j with
      | zero => simp [listModify]
      | succ m => simpa [listModify] using ih n m (by omega)

theorem optMapList_isSome {α β : Type} (f : α → Option β) (l : List α)
    (h : ∀ a ∈ l, (f a).isSome) : ∃ out, optMapList f l = some out := by
  induction l with
  | nil => exact ⟨[], rfl⟩
  | cons a as ih =>
    obtain ⟨out, hout⟩ := ih (fun x hx => h x (List.mem_cons_of_mem _ hx))
    have := h a (List.mem_cons_self _ _)
    obtain ⟨b, hb⟩ := Option.isSome_iff_exists.mp this
    exact ⟨b :: out, by simp [optMapList, hb, hout]⟩

theorem optMapList_length {α β : Type} (f : α → Option β) (l : List α)
    (out : List β) (h : optMapList f l = some out) : out.length = l.length := by
  induction l generalizing out with
  | nil =>
    simp only [optMapList, Option.some.injEq] at h
    subst h; rfl
  | cons a as ih =>
    simp only [optMapList] at h
    cases hf : f a with
    | none => rw [hf] at h; simp at h
    | some b =>
      rw [hf] at h
      cases hrest : optMapList f as with
      | none => rw [hrest] at h; simp at h
      | some bs =>
        rw [hrest] at h
        simp only [Option.some.injEq] at h
        subst h
        simp [ih bs hrest]

theorem optMapList_idx {α β : Type} (f : α → Option β) (l : List α)
    (out : List β) (h : optMapList f l = some out) :
    ∀ (i : Nat) (a : α), l[i]? = some a → out[i]? = f a := by
  induction l generalizing out with
  | nil => intro i a ha; simp at ha
  | cons x as ih =>
    intro i a ha
    simp only [optMapList] at h
    cases hf : f x with
    | none => rw [hf] at h; simp at h
    | some b =>
      rw [hf] at h
      cases hrest : optMapList f as with
      | none => rw [hrest] at h; simp at h
      | some bs =>
        rw [hrest] at h
        simp only [Option.some.injEq] at h
        subst h
        cases i with
        | zero =>
          simp only [List.getElem?_cons_zero, Option.some.injEq] at ha
          subst ha
          simp [hf]
        | succ n =>
          simp only [List.getElem?_cons_succ] at ha ⊢
          exact ih bs hrest n a ha

theorem optMapList_mem {α β : Type} (f : α → Option β) (l : List α)
    (out : List β) (h : optMapList f l = some out) (a : α) (ha : a ∈ l)
    (b : β) (hb : f a = some b) : b ∈ out := by
  induction l generalizing out with
  | nil => simp at ha
  | cons x as ih =>
    simp only [optMapList] at h
    cases hf : f x with
    | none => rw [hf] at h; simp at h
    | some b0 =>
      rw [hf] at h
      cases hrest : optMapList f as with
      | none => rw [hrest] at h; simp at h
      | some bs =>
        rw [hrest] at h
        simp only [Option.some.injEq] at h
        subst h
        rcases List.mem_cons.mp ha with rfl | hmem
        · rw [hf] at hb
          injection hb with e
          simp [e]
        · exact List.mem_cons_of_mem _ (ih bs hrest hmem)

/-! ## The store round-trip (claims C3, C4, C10) -/

theorem normEntry_encodeComment (c : CommentRec) :
    normEntry (encodeComment c) = some c := by
  simp [normEntry, encodeComment, jGetD, lookupA, pyList]

theorem loadValue_encodeRecord (k : String) (r : DesignRecord) :
    loadValue k (encodeRecord r) = some r := by
  have hcs : ∀ cs : List CommentRec,
      optMapList normEntry (cs.map encodeComment) = some cs := by
    intro cs
    induction cs with
    | nil => rfl
    | cons c cs ih => simp [optMapList, normEntry_encodeComment, ih]
  simp [loadValue, encodeRecord, jGetD, lookupA, pyList, hcs]

/-- C4: save followed by load is the identity on canonical in-memory stores,
and hence loading, saving and re-loading yields the mapping of the first
load. -/
theorem claim_C4 :
    (∀ m : Designs, load_designs (save_designs m) = some m) ∧
    (∀ (raw : JVal) (m : Designs),
      load_designs raw = some m → load_designs (save_designs m) = some m) := by
  have h1 : ∀ m : Designs, load_designs (save_designs m) = some m := by
    intro m
    simp only [load_designs, save_designs]
    induction m with
    | nil => rfl
    | cons kv rest ih =>
      simp only [List.map_cons, optMapList, loadValue_encodeRecord,
        Option.map_some']
      rw [ih]
  exact ⟨h1, fun raw m _ => h1 m⟩

/-- C4 witness: the round-trip evaluated on a store that was itself obtained
by loading a legacy document. -/
theorem claim_C4_witness :
    load_designs (save_designs [("logo.png",
      ⟨[.str "logo.png"], [⟨.str "hi", []⟩]⟩)]) =
    some [("logo.png", ⟨[.str "logo.png"], [⟨.str "hi", []⟩]⟩)] :=
  claim_C4.2 (.obj [("logo.png", .arr [.str "hi"])]) _ rfl

/-- C10: a store entry whose value is a dict without an `images` key is
loaded as flat legacy data: the key becomes the single image, the comment
list is empty, and any `comments` field the dict contained is discarded. -/
theorem claim_C10 :
    ∀ (kvs : List (String × JVal)) (out : Designs) (i : Nat) (k : String)
      (o : List (String × JVal)),
    load_designs (.obj kvs) = some out → kvs[i]? = some (k, .obj o) →
    lookupA o "images" = none → out[i]? = some (k, ⟨[.str k], []⟩) := by
  intro kvs out i k o hload hidx himg
  simp only [load_designs] at hload
  have := optMapList_idx _ kvs out hload i (k, .obj o) hidx
  rw [this]
  simp [loadValue, himg]

/-- C10 witness: an entry carrying a `comments` field but no `images` field
loses those comments on load. -/
theorem claim_C10_witness :
    load_designs (.obj [("a.png", .obj [("comments", .arr [.str "hi"])])]) =
      some [("a.png", ⟨[.str "a.png"], []⟩)] ∧
    [("a.png", (⟨[.str "a.png"], []⟩ : DesignRecord))][0]? =
      some ("a.png", ⟨[.str "a.png"], []⟩) := by
  constructor
  · rfl
  · exact claim_C10 [("a.png", .obj [("comments", .arr [.str "hi"])])] _ 0 "a.png"
      [("comments", .arr [.str "hi"])] rfl rfl rfl

theorem normEntry_str (s : String) : normEntry (.str s) = some ⟨.str s, []⟩ := rfl

theorem normEntry_isSome_of_legacy (e : JVal) (h : legacyEntryB e = true) :
    (normEntry e).isSome := by
  cases e with
  | obj o =>
    simp only [legacyEntryB] at h
    simp only [normEntry]
    cases hp : pyList (jGetD o "replies" (.arr [])) with
    | none => rw [hp] at h; simp at h
    | some rs => simp
  | null => rfl
  | bool b => rfl
  | num n => rfl
  | str s => rfl
  | arr xs => rfl

theorem optMapList_normEntry_legacy (entries : List JVal)
    (h : entries.all legacyEntryB = true) :
    ∃ cs, optMapList normEntry entries = some cs ∧
      cs.length = entries.length ∧
      ∀ (j : Nat) (s : String), entries[j]? = some (.str s) →
        cs[j]? = some ⟨.str s, []⟩ := by
  obtain ⟨cs, hcs⟩ := optMapList_isSome normEntry entries
    (fun e he => normEntry_isSome_of_legacy e (by
      rw [List.all_eq_true] at h; exact h e he))
  refine ⟨cs, hcs, optMapList_length _ _ _ hcs, ?_⟩
  intro j s hj
  rw [optMapList_idx _ _ _ hcs j _ hj]
  rfl

/-- C3: loading a store document in either legacy shape — flat
image→comment-list entries, or comment entries given as bare strings —
produces the canonical shape: a flat entry becomes a record whose image list
is exactly the singleton of its key, a new-format entry keeps its image
list, and in both cases every bare-string comment entry becomes the comment
`{text: that string, replies: []}` (dict entries keep their text and get a
materialised reply list, which the result type `CommentRec` makes
structural). -/
theorem claim_C3 :
    ∀ kvs : List (String × JVal),
    (∀ kv ∈ kvs, legacyValB kv.2 = true) →
    ∃ out : Designs, load_designs (.obj kvs) = some out ∧
      out.length = kvs.length ∧
      (∀ (i : Nat) (k : String) (entries : List JVal),
        kvs[i]? = some (k, .arr entries) →
        ∃ cs, out[i]? = some (k, ⟨[.str k], cs⟩) ∧
          cs.length = entries.length ∧
          (∀ (j : Nat) (s : String), entries[j]? = some (.str s) →
            cs[j]? = some ⟨.str s, []⟩)) ∧
      (∀ (i : Nat) (k : String) (o : List (String × JVal)) (imgs entries : List JVal),
        kvs[i]? = some (k, .obj o) →
        pyList (jGetD o "images" (.arr [])) = some imgs →
        pyList (jGetD o "comments" (.arr [])) = some entries →
        ∃ cs, out[i]? = some (k, ⟨imgs, cs⟩) ∧
          cs.length = entries.length ∧
          (∀ (j : Nat) (s : String), entries[j]? = some (.str s) →
            cs[j]? = some ⟨.str s, []⟩)) := by
  intro kvs hleg
  have hsome : ∀ kv ∈ kvs,
      ((loadValue kv.1 kv.2).map (fun r => (kv.1, r))).isSome := by
    intro kv hkv
    have h := hleg kv hkv
    cases hv : kv.2 with
    | arr entries =>
      rw [hv] at h
      simp only [legacyValB] at h
      obtain ⟨cs, hcs, -, -⟩ := optMapList_normEntry_legacy entries h
      simp [loadValue, hcs]
    | obj o =>
      rw [hv] at h
      simp only [legacyValB, Bool.and_eq_true] at h
      obtain ⟨⟨him, himl⟩, hcm⟩ := h
      cases hpi : pyList (jGetD o "images" (.arr [])) with
      | none => rw [hpi] at himl; simp at himl
      | some imgs =>
        cases hpc : pyList (jGetD o "comments" (.arr [])) with
        | none => rw [hpc] at hcm; simp at hcm
        | some entries =>
          rw [hpc] at hcm
          obtain ⟨cs, hcs, -, -⟩ := optMapList_normEntry_legacy entries hcm
          simp [loadValue, him, hpi, hpc, hcs]
    | null => rw [hv] at h; simp [legacyValB] at h
    | bool b => rw [hv] at h; simp [legacyValB] at h
    | num n => rw [hv] at h; simp [legacyValB] at h
    | str s => rw [hv] at h; simp [legacyValB] at h
  obtain ⟨out, hout⟩ := optMapList_isSome _ kvs hsome
  refine ⟨out, hout, optMapList_length _ _ _ hout, ?_, ?_⟩
  · intro i k entries hi
    have hleg2 := hleg _ (List.getElem?_mem hi)
    simp only [legacyValB] at hleg2
    obtain ⟨cs, hcs, hlen, hstr⟩ := optMapList_normEntry_legacy entries hleg2
    refine ⟨cs, ?_, hlen, hstr⟩
    rw [optMapList_idx _ _ _ hout i _ hi]
    simp [loadValue, hcs]
  · intro i k o imgs entries hi hpi hpc
    have hleg2 := hleg _ (List.getElem?_mem hi)
    simp only [legacyValB, Bool.and_eq_true] at hleg2
    obtain ⟨⟨him, -⟩, hcm⟩ := hleg2
    rw [hpc] at hcm
    obtain ⟨cs, hcs, hlen, hstr⟩ := optMapList_normEntry_legacy entries hcm
    refine ⟨cs, ?_, hlen, hstr⟩
    rw [optMapList_idx _ _ _ hout i _ hi]
    simp [loadValue, him, hpi, hpc, hcs]

/-- C3 witness: a document mixing both legacy forms — a flat entry whose
comment list holds a bare string and a legacy dict comment. -/
theorem claim_C3_witness :
    ∃ out : Designs,
      load_designs (.obj [("a.png",
        .arr [.str "nice", .obj [("text", .str "t"), ("replies", .arr [.str "r"])]])]) =
        some out ∧
      out.length = [("a.png",
        JVal.arr [.str "nice", .obj [("text", .str "t"), ("replies", .arr [.str "r"])]])].length ∧
      (∀ (i : Nat) (k : String) (entries : List JVal),
        [("a.png", JVal.arr [.str "nice",
          .obj [("text", .str "t"), ("replies", .arr [.str "r"])]])][i]? =
          some (k, .arr entries) →
        ∃ cs, out[i]? = some (k, ⟨[.str k], cs⟩) ∧
          cs.length = entries.length ∧
          (∀ (j : Nat) (s : String), entries[j]? = some (.str s) →
            cs[j]? = some ⟨.str s, []⟩)) ∧
      (∀ (i : Nat) (k : String) (o : List (String × JVal)) (imgs entries : List JVal),
        [("a.png", JVal.arr [.str "nice",
          .obj [("text", .str "t"), ("replies", .arr [.str "r"])]])][i]? =
          some (k, .obj o) →
        pyList (jGetD o "images" (.arr [])) = some imgs →
        pyList (jGetD o "comments" (.arr [])) = some entries →
        ∃ cs, out[i]? = some (k, ⟨imgs, cs⟩) ∧
          cs.length = entries.length ∧
          (∀ (j : Nat) (s : String), entries[j]? = some (.str s) →
            cs[j]? = some ⟨.str s, []⟩)) :=
  claim_C3 [("a.png",
    .arr [.str "nice", .obj [("text", .str "t"), ("replies", .arr [.str "r"])]])]
    (by intro kv hkv; simp at hkv; rw [hkv]; rfl)

/-! ## The comment handler (claim C6) -/

/-- C6: POST /comment — with a missing design id, a comment that is empty
after trimming, or an unknown design, the handler answers 303 and the store
content is unchanged; otherwise exactly one comment
`{text: trimmed comment, replies: []}` is appended to that design's comment
list (whose length grows by one), every other design is unchanged, and the
answer is 303. -/
theorem claim_C6 :
    (∀ (ds : Designs) (c : Option String),
      handle_comment ds none c = (303, ds)) ∧
    (∀ (ds : Designs) (did c : Option String),
      pyStrip (c.getD "") = "" → handle_comment ds did c = (303, ds)) ∧
    (∀ (ds : Designs) (did : String) (c : Option String),
      lookupA ds did = none → handle_comment ds (some did) c = (303, ds)) ∧
    (∀ (ds : Designs) (did c : String) (r : DesignRecord),
      did ≠ "" → pyStrip c ≠ "" → lookupA ds did = some r →
      (handle_comment ds (some did) (some c)).1 = 303 ∧
      lookupA (handle_comment ds (some did) (some c)).2 did =
        some ⟨r.images, r.comments ++ [⟨.str (pyStrip c), []⟩]⟩ ∧
      (∀ k, k ≠ did →
        lookupA (handle_comment ds (some did) (some c)).2 k = lookupA ds k) ∧
      (∀ r2, lookupA (handle_comment ds (some did) (some c)).2 did = some r2 →
        r2.comments.length = r.comments.length + 1)) := by
  refine ⟨?_, ?_, ?_, ?_⟩
  · intro ds c; simp [handle_comment]
  · intro ds did c hc; simp [handle_comment, hc]
  · intro ds did c hl
    by_cases hd : did = ""
    · simp [handle_comment, hd]
    · simp [handle_comment, hd, hl]
  · intro ds did c r hd hc hl
    have hres : handle_comment ds (some did) (some c) =
        (303, updAssoc ds did
          (fun r2 => ⟨r2.images, r2.comments ++ [⟨.str (pyStrip c), []⟩]⟩)) := by
      simp [handle_comment, hd, hc, hl]
    have hres2 : (handle_comment ds (some did) (some c)).2 =
        updAssoc ds did
          (fun r2 => ⟨r2.images, r2.comments ++ [⟨.str (pyStrip c), []⟩]⟩) := by
      rw [hres]
    refine ⟨by rw [hres], ?_, ?_, ?_⟩
    · rw [hres2, lookupA_updAssoc_self, hl]; rfl
    · intro k hk; rw [hres2]; exact lookupA_updAssoc_other _ _ _ _ hk
    · intro r2 h2
      rw [hres2, lookupA_updAssoc_self, hl] at h2
      simp only [Option.map_some', Option.some.injEq] at h2
      rw [← h2]
      simp

/-- C6 witness: a successful comment on a one-design store. -/
theorem claim_C6_witness :
    (handle_comment [("d", ⟨[.str "d.png"], []⟩)] (some "d") (some " Nice! ")).1 = 303 ∧
    lookupA (handle_comment [("d", ⟨[.str "d.png"], []⟩)] (some "d") (some " Nice! ")).2 "d" =
      some ⟨[.str "d.png"], [] ++ [⟨.str (pyStrip " Nice! "), []⟩]⟩ ∧
    (∀ k, k ≠ "d" →
      lookupA (handle_comment [("d", ⟨[.str "d.png"], []⟩)] (some "d") (some " Nice! ")).2 k =
        lookupA [("d", ⟨[.str "d.png"], []⟩)] k) ∧
    (∀ r2, lookupA (handle_comment [("d", ⟨[.str "d.png"], []⟩)]
        (some "d") (some " Nice! ")).2 "d" = some r2 →
      r2.comments.length = ([] : List CommentRec).length + 1) :=
  claim_C6.2.2.2 [("d", ⟨[.str "d.png"], []⟩)] "d" " Nice! " ⟨[.str "d.png"], []⟩
    (by decide) (by decide) rfl

/-! ## The reply handler (claim C5) -/

/-- C5: POST /reply — with an existing design, a non-empty trimmed reply and
a comment index parsing to `i` with `0 ≤ i <` the number of comments, exactly
the (trimmed) reply string is appended to the end of comment `i`'s replies;
the image list, every other comment of the design and every other design are
unchanged.  With any of the three fields missing, or an unparseable or
out-of-range index, the store content is unchanged. -/
theorem claim_C5 :
    (∀ (ds : Designs) (p q r : Option String),
      p = none ∨ q = none ∨ r = none → handle_reply ds p q r = ds) ∧
    (∀ (ds : Designs) (did reply idxStr : String),
      pyInt idxStr = none →
      handle_reply ds (some did) (some reply) (some idxStr) = ds) ∧
    (∀ (ds : Designs) (did reply idxStr : String) (i : Int) (r : DesignRecord),
      pyInt idxStr = some i → lookupA ds did = some r →
      ¬(0 ≤ i ∧ i < (r.comments.length : Int)) →
      handle_reply ds (some did) (some reply) (some idxStr) = ds) ∧
    (∀ (ds : Designs) (did reply idxStr : String) (i : Int) (r : DesignRecord)
       (c : CommentRec),
      did ≠ "" → pyStrip reply ≠ "" →
      pyInt idxStr = some i → lookupA ds did = some r →
      0 ≤ i → i < (r.comments.length : Int) → r.comments[i.toNat]? = some c →
      lookupA (handle_reply ds (some did) (some reply) (some idxStr)) did =
        some ⟨r.images, listModify r.comments i.toNat
          (fun c2 => ⟨c2.text, c2.replies ++ [.str (pyStrip reply)]⟩)⟩ ∧
      (∀ k, k ≠ did →
        lookupA (handle_reply ds (some did) (some reply) (some idxStr)) k =
          lookupA ds k) ∧
      (listModify r.comments i.toNat
        (fun c2 => ⟨c2.text, c2.replies ++ [.str (pyStrip reply)]⟩))[i.toNat]? =
        some ⟨c.text, c.replies ++ [.str (pyStrip reply)]⟩ ∧
      (∀ j : Nat, j ≠ i.toNat →
        (listModify r.comments i.toNat
          (fun c2 => ⟨c2.text, c2.replies ++ [.str (pyStrip reply)]⟩))[j]? =
          r.comments[j]?) ∧
      (listModify r.comments i.toNat
        (fun c2 => ⟨c2.text, c2.replies ++ [.str (pyStrip reply)]⟩)).length =
        r.comments.length) := by
  refine ⟨?_, ?_, ?_, ?_⟩
  · intro ds p q r h
    rcases h with rfl | rfl | rfl
    · simp [handle_reply]
    · have : pyStrip "" = "" := rfl
      simp [handle_reply, this]
    · simp [handle_reply]
  · intro ds did reply idxStr hp
    by_cases hcond : did = "" ∨ pyStrip reply = ""
    · rcases hcond with h | h <;> simp [handle_reply, h]
    · push_neg at hcond
      simp only [handle_reply, Option.getD_some, hp]
      rw [if_neg (by simp [hcond.1, hcond.2])]
      cases hl : lookupA ds did with
      | none => simp
      | some r => simp
  · intro ds did reply idxStr i r hp hl hrange
    by_cases hcond : did = "" ∨ pyStrip reply = ""
    · rcases hcond with h | h <;> simp [handle_reply, h]
    · push_neg at hcond
      simp only [handle_reply, Option.getD_some, hp]
      rw [if_neg (by simp [hcond.1, hcond.2])]
      simp [hl, hrange]
  · intro ds did reply idxStr i r c hd hreply hp hl h0 hlen hc
    have hres : handle_reply ds (some did) (some reply) (some idxStr) =
        updAssoc ds did (fun rec => ⟨rec.images, listModify rec.comments i.toNat
          (fun c2 => ⟨c2.text, c2.replies ++ [.str (pyStrip reply)]⟩)⟩) := by
      simp only [handle_reply, Option.getD_some, hp]
      rw [if_neg (by simp [hd, hreply])]
      simp [hl, h0, hlen]
    refine ⟨?_, ?_, ?_, ?_, ?_⟩
    · rw [hres, lookupA_updAssoc_self, hl]; rfl
    · intro k hk; rw [hres]; exact lookupA_updAssoc_other _ _ _ _ hk
    · exact listModify_get_self _ _ _ _ hc
    · intro j hj; exact listModify_get_other _ _ _ _ hj
    · exact listModify_length _ _ _

/-- C5 witness: a successful reply to the first comment of a two-comment
design. -/
theorem claim_C5_witness :
    lookupA (handle_reply [("d", ⟨[.str "d.png"],
        [(⟨.str "a", []⟩ : CommentRec), ⟨.str "b", [.str "x"]⟩]⟩)]
        (some "d") (some "Thanks") (some "0")) "d" =
      some ⟨[.str "d.png"],
        listModify [(⟨.str "a", []⟩ : CommentRec), ⟨.str "b", [.str "x"]⟩]
          (Int.toNat 0)
          (fun c2 => ⟨c2.text, c2.replies ++ [.str (pyStrip "Thanks")]⟩)⟩ ∧
    (∀ k, k ≠ "d" →
      lookupA (handle_reply [("d", ⟨[.str "d.png"],
          [(⟨.str "a", []⟩ : CommentRec), ⟨.str "b", [.str "x"]⟩]⟩)]
          (some "d") (some "Thanks") (some "0")) k =
        lookupA [("d", (⟨[.str "d.png"],
          [(⟨.str "a", []⟩ : CommentRec), ⟨.str "b", [.str "x"]⟩]⟩ : DesignRecord))] k) ∧
    (listModify [(⟨.str "a", []⟩ : CommentRec), ⟨.str "b", [.str "x"]⟩] (Int.toNat 0)
        (fun c2 => ⟨c2.text, c2.replies ++ [.str (pyStrip "Thanks")]⟩))[Int.toNat 0]? =
      some ⟨JVal.str "a", [] ++ [.str (pyStrip "Thanks")]⟩ ∧
    (∀ j : Nat, j ≠ Int.toNat 0 →
      (listModify [(⟨.str "a", []⟩ : CommentRec), ⟨.str "b", [.str "x"]⟩] (Int.toNat 0)
        (fun c2 => ⟨c2.text, c2.replies ++ [.str (pyStrip "Thanks")]⟩))[j]? =
        [(⟨.str "a", []⟩ : CommentRec), ⟨.str "b", [.str "x"]⟩][j]?) ∧
    (listModify [(⟨.str "a", []⟩ : CommentRec), ⟨.str "b", [.str "x"]⟩] (Int.toNat 0)
      (fun c2 => ⟨c2.text, c2.replies ++ [.str (pyStrip "Thanks")]⟩)).length =
      ([(⟨.str "a", []⟩ : CommentRec), ⟨.str "b", [.str "x"]⟩]).length :=
  claim_C5.2.2.2
    [("d", ⟨[.str "d.png"], [(⟨.str "a", []⟩ : CommentRec), ⟨.str "b", [.str "x"]⟩]⟩)]
    "d" "Thanks" "0" 0
    ⟨[.str "d.png"], [(⟨.str "a", []⟩ : CommentRec), ⟨.str "b", [.str "x"]⟩]⟩
    ⟨.str "a", []⟩ (by decide) (by decide) rfl rfl (by decide) (by decide) rfl

/-! ## The delete handler (claim C7) -/

theorem deleteImages_spec (removeOk : String → Bool) (imgs : List String) :
    ∀ fs : List String, ∃ fs2,
      deleteImages removeOk (imgs.map JVal.str) fs = some fs2 ∧
      ∀ f, f ∈ fs2 ↔ f ∈ fs ∧ ¬(f ∈ imgs.map pyBasename ∧ removeOk f = true) := by
  induction imgs with
  | nil => intro fs; exact ⟨fs, rfl, by simp [deleteImages]⟩
  | cons s rest ih =>
    intro fs
    simp only [List.map_cons, deleteImages]
    obtain ⟨fs2, hdel, hmem⟩ := ih
      (if pyBasename s ∈ fs ∧ removeOk (pyBasename s) = true then
        fs.filter (fun f => f ≠ pyBasename s) else fs)
    refine ⟨fs2, hdel, ?_⟩
    intro f
    rw [hmem f]
    by_cases hcond : pyBasename s ∈ fs ∧ removeOk (pyBasename s) = true
    · rw [if_pos hcond]
      by_cases hf : f = pyBasename s
      · subst hf
        simp [hcond.2, List.mem_filter]
      · simp [List.mem_filter, hf]
    · rw [if_neg hcond]
      by_cases hf : f = pyBasename s
      · subst hf
        constructor
        · rintro ⟨hin, hn⟩
          refine ⟨hin, ?_⟩
          rintro ⟨-, hok⟩
          exact hcond ⟨hin, hok⟩
        · rintro ⟨hin, hn⟩
          refine ⟨hin, ?_⟩
          rintro ⟨hmem2, hok⟩
          exact hn ⟨by simp [hmem2], hok⟩
      · simp [hf]

/-- C7: POST /delete — for a design id present in the store, its record is
removed (every other design is untouched), each of its image files is
best-effort removed from the upload directory (a file disappears exactly
when it is one of the design's image base names and its removal succeeded;
failures are tolerated), the store is persisted and the answer is 303; for a
missing or unknown design id the store and directory are unchanged and the
answer is still 303, never an error status. -/
theorem claim_C7 :
    (∀ (ds : Designs) (fs : List String) (removeOk : String → Bool),
      handle_delete ds fs none removeOk = some (303, ds, fs)) ∧
    (∀ (ds : Designs) (fs : List String) (removeOk : String → Bool),
      handle_delete ds fs (some "") removeOk = some (303, ds, fs)) ∧
    (∀ (ds : Designs) (fs : List String) (did : String) (removeOk : String → Bool),
      lookupA ds did = none →
      handle_delete ds fs (some did) removeOk = some (303, ds, fs)) ∧
    (∀ (ds : Designs) (fs : List String) (did : String) (r : DesignRecord)
       (imgs : List String) (removeOk : String → Bool),
      did ≠ "" → lookupA ds did = some r → r.images = imgs.map JVal.str →
      ∃ fs2, handle_delete ds fs (some did) removeOk =
          some (303, ds.filter (fun kv => kv.1 ≠ did), fs2) ∧
        (∀ f, f ∈ fs2 ↔ f ∈ fs ∧ ¬(f ∈ imgs.map pyBasename ∧ removeOk f = true)) ∧
        (∀ kv, kv ∈ ds.filter (fun kv => kv.1 ≠ did) ↔ kv ∈ ds ∧ kv.1 ≠ did)) := by
  refine ⟨?_, ?_, ?_, ?_⟩
  · intro ds fs removeOk; rfl
  · intro ds fs removeOk; rfl
  · intro ds fs did removeOk hl
    by_cases hd : did = ""
    · subst hd; rfl
    · simp [handle_delete, hd, hl]
  · intro ds fs did r imgs removeOk hd hl himgs
    obtain ⟨fs2, hdel, hmem⟩ := deleteImages_spec removeOk imgs fs
    refine ⟨fs2, ?_, hmem, ?_⟩
    · simp [handle_delete, hd, hl, himgs, hdel]
    · intro kv; simp [List.mem_filter]

/-- C7 witness: deleting a design with two image files, one of which fails
to delete, and checking the unknown-id no-op on the remaining store. -/
theorem claim_C7_witness :
    (∃ fs2, handle_delete
        [("d", ⟨[.str "a.png", .str "b.png"], []⟩), ("e", ⟨[.str "c.png"], []⟩)]
        ["a.png", "b.png", "c.png"] (some "d") (fun f => !(f == "b.png")) =
        some (303,
          ([("d", ⟨[.str "a.png", .str "b.png"], []⟩),
            ("e", ⟨[.str "c.png"], []⟩)] : Designs).filter (fun kv => kv.1 ≠ "d"),
          fs2) ∧
      (∀ f, f ∈ fs2 ↔ f ∈ ["a.png", "b.png", "c.png"] ∧
        ¬(f ∈ ["a.png", "b.png"].map pyBasename ∧ (fun f => !(f == "b.png")) f = true)) ∧
      (∀ kv, kv ∈ ([("d", ⟨[.str "a.png", .str "b.png"], []⟩),
          ("e", ⟨[.str "c.png"], []⟩)] : Designs).filter (fun kv => kv.1 ≠ "d") ↔
        kv ∈ ([("d", ⟨[.str "a.png", .str "b.png"], []⟩),
          ("e", ⟨[.str "c.png"], []⟩)] : Designs) ∧ kv.1 ≠ "d")) ∧
    handle_delete [("e", (⟨[.str "c.png"], []⟩ : DesignRecord))] ["c.png"]
      (some "zzz") (fun _ => true) = some (303, [("e", ⟨[.str "c.png"], []⟩)], ["c.png"]) :=
  ⟨claim_C7.2.2.2
      [("d", ⟨[.str "a.png", .str "b.png"], []⟩), ("e", ⟨[.str "c.png"], []⟩)]
      ["a.png", "b.png", "c.png"] "d" ⟨[.str "a.png", .str "b.png"], []⟩
      ["a.png", "b.png"] (fun f => !(f == "b.png")) (by decide) rfl rfl,
   claim_C7.2.2.1 [("e", ⟨[.str "c.png"], []⟩)] ["c.png"] "zzz" (fun _ => true) rfl⟩

/-! ## Fresh-name machinery (claims C1, C2) -/

theorem natDigits_ne_nil (n : Nat) : natDigits n ≠ [] := by
  rw [natDigits.eq_def]
  split
  · simp
  · simp

theorem digitChar_injOn : ∀ a < 10, ∀ b < 10, digitChar a = digitChar b → a = b := by
  decide

theorem natDigits_inj : ∀ m n : Nat, natDigits m = natDigits n → m = n := by
  intro m
  induction m using Nat.strong_induction_on with
  | _ m ih =>
    intro n h
    unfold natDigits at h
    by_cases hm : m < 10 <;> by_cases hn : n < 10
    · rw [dif_pos hm, dif_pos hn] at h
      simp only [List.cons.injEq, and_true] at h
      exact digitChar_injOn m hm n hn h
    · rw [dif_pos hm, dif_neg hn] at h
      have hlen := congrArg List.length h
      simp only [List.length_singleton, List.length_append] at hlen
      exact absurd (List.length_eq_zero.mp (by omega)) (natDigits_ne_nil (n / 10))
    · rw [dif_neg hm, dif_pos hn] at h
      have hlen := congrArg List.length h
      simp only [List.length_singleton, List.length_append] at hlen
      exact absurd (List.length_eq_zero.mp (by omega)) (natDigits_ne_nil (m / 10))
    · rw [dif_neg hm, dif_neg hn] at h
      have hrev := congrArg List.reverse h
      simp only [List.reverse_append, List.reverse_cons, List.reverse_nil,
        List.nil_append, List.singleton_append, List.cons.injEq] at hrev
      obtain ⟨hhead, htail⟩ := hrev
      have hmod : m % 10 = n % 10 :=
        digitChar_injOn (m % 10) (Nat.mod_lt _ (by omega)) (n % 10)
          (Nat.mod_lt _ (by omega)) hhead
      have hdiv : m / 10 = n / 10 :=
        ih (m / 10) (Nat.div_lt_self (by omega) (by omega)) (n / 10)
          (List.reverse_injective htail)
      omega

theorem natToStr_data (n : Nat) : (natToStr n).data = natDigits n := rfl

theorem freshLoop_spec (taken : List String) (cand : Nat → String) :
    ∀ fuel start : Nat, (∃ j, j < fuel ∧ cand (start + j) ∉ taken) →
    ∃ j, freshLoop taken cand start fuel = cand (start + j) ∧
      cand (start + j) ∉ taken ∧ ∀ i < j, cand (start + i) ∈ taken := by
  intro fuel
  induction fuel with
  | zero =>
    rintro start ⟨j, hj, -⟩
    exact absurd hj (Nat.not_lt_zero j)
  | succ fuel ih =>
    rintro start ⟨j, hj, hfree⟩
    by_cases hmem : cand start ∈ taken
    · have hj0 : j ≠ 0 := by
        intro e
        subst e
        rw [Nat.add_zero] at hfree
        exact hfree hmem
      obtain ⟨j2, heq, hfree2, hmin⟩ := ih (start + 1)
        ⟨j - 1, by omega, by
          have e : start + 1 + (j - 1) = start + j := by omega
          rw [e]; exact hfree⟩
      refine ⟨j2 + 1, ?_, ?_, ?_⟩
      · simp only [freshLoop, if_pos hmem]
        rw [heq]
        congr 1
        omega
      · have e : start + (j2 + 1) = start + 1 + j2 := by omega
        rw [e]; exact hfree2
      · intro i hi
        cases i with
        | zero => simpa using hmem
        | succ i2 =>
          have e : start + (i2 + 1) = start + 1 + i2 := by omega
          rw [e]; exact hmin i2 (by omega)
    · exact ⟨0, by simp [freshLoop, hmem], by simpa using hmem,
        fun i hi => absurd hi (Nat.not_lt_zero i)⟩

theorem exists_fresh (taken : List String) (cand : Nat → String)
    (hinj : Function.Injective cand) :
    ∃ j, j < taken.length + 1 ∧ cand j ∉ taken := by
  by_contra hc
  push_neg at hc
  have hsub : (List.range (taken.length + 1)).map cand ⊆ taken := by
    intro x hx
    simp only [List.mem_map, List.mem_range] at hx
    obtain ⟨j, hj, rfl⟩ := hx
    exact hc j hj
  have hnd : ((List.range (taken.length + 1)).map cand).Nodup :=
    (List.nodup_range (taken.length + 1)).map hinj
  have hle := (List.subperm_of_subset hnd hsub).length_le
  simp at hle

theorem freshFrom_spec (taken : List String) (cand : Nat → String)
    (hinj : Function.Injective cand) :
    ∃ j, freshFrom taken cand = cand j ∧ cand j ∉ taken ∧
      ∀ i < j, cand i ∈ taken := by
  obtain ⟨j, hj, hfree⟩ := exists_fresh taken cand hinj
  obtain ⟨j2, heq, hfree2, hmin⟩ := freshLoop_spec taken cand (taken.length + 1) 0
    ⟨j, hj, by simpa using hfree⟩
  exact ⟨j2, by simpa [freshFrom] using heq, by simpa using hfree2,
    fun i hi => by simpa using hmin i hi⟩

theorem idCand_inj (slug : String) : Function.Injective (idCand slug) := by
  intro j k h
  unfold idCand at h
  by_cases hj : j = 0 <;> by_cases hk : k = 0
  · omega
  · rw [if_pos hj, if_neg hk] at h
    have hlen := congrArg (fun s : String => s.data.length) h
    simp only [String.data_append, List.length_append, natToStr_data] at hlen
    have := List.length_pos.mpr (natDigits_ne_nil k)
    simp at hlen
    omega
  · rw [if_neg hj, if_pos hk] at h
    have hlen := congrArg (fun s : String => s.data.length) h
    simp only [String.data_append, List.length_append, natToStr_data] at hlen
    have := List.length_pos.mpr (natDigits_ne_nil j)
    simp at hlen
    omega
  · rw [if_neg hj, if_neg hk] at h
    have hd := congrArg String.data h
    simp only [String.data_append] at hd
    exact natDigits_inj j k (List.append_cancel_left hd)

theorem fileCand_inj (raw name ext : String) (hraw : raw = name ++ ext) :
    Function.Injective (fileCand raw name ext) := by
  intro j k h
  unfold fileCand at h
  by_cases hj : j = 0 <;> by_cases hk : k = 0
  · omega
  · rw [if_pos hj, if_neg hk, hraw] at h
    have hlen := congrArg (fun s : String => s.data.length) h
    simp only [String.data_append, List.length_append, natToStr_data] at hlen
    have := List.length_pos.mpr (natDigits_ne_nil k)
    simp at hlen
    omega
  · rw [if_neg hj, if_pos hk, hraw] at h
    have hlen := congrArg (fun s : String => s.data.length) h
    simp only [String.data_append, List.length_append, natToStr_data] at hlen
    have := List.length_pos.mpr (natDigits_ne_nil j)
    simp at hlen
    omega
  · rw [if_neg hj, if_neg hk] at h
    have hd := congrArg String.data h
    simp only [String.data_append] at hd
    have h2 := List.append_cancel_right hd
    exact natDigits_inj j k (List.append_cancel_left h2)

theorem dropWhile_head_false {α : Type} (p : α → Bool) :
    ∀ (l : List α) (d : α) (rest : List α),
    l.dropWhile p = d :: rest → p d = false := by
  intro l
  induction l with
  | nil => intro d rest h; simp [List.dropWhile] at h
  | cons a t ih =>
    intro d rest h
    by_cases hp : p a
    · rw [List.dropWhile_cons_of_pos hp] at h
      exact ih d rest h
    · rw [List.dropWhile_cons_of_neg hp] at h
      obtain ⟨rfl, -⟩ := List.cons.injEq .. ▸ h
      · simpa using hp

theorem pySplitext_concat (s : String) :
    (pySplitext s).1 ++ (pySplitext s).2 = s := by
  rcases hsp : pySplitext s with ⟨a, b⟩
  unfold pySplitext at hsp
  split at hsp
  · injection hsp with h1 h2
    subst h1; subst h2
    simp
  · rename_i d restRev heq
    split at hsp
    · rename_i hany
      injection hsp with h1 h2
      subst h1; subst h2
      have hd : d = '.' := by
        have := dropWhile_head_false _ _ _ _ heq
        simpa using this
      have hsplit : s.data.reverse.takeWhile (fun c => decide (c ≠ '.')) ++
          (d :: restRev) = s.data.reverse := by
        rw [← heq]
        exact List.takeWhile_append_dropWhile _ _
      have hdata : restRev.reverse ++
          ('.' :: (s.data.reverse.takeWhile (fun c => decide (c ≠ '.'))).reverse) =
          s.data := by
        have h2 := congrArg List.reverse hsplit
        simp only [List.reverse_append, List.reverse_cons, List.reverse_nil,
          List.nil_append, List.reverse_reverse, List.append_assoc,
          List.singleton_append] at h2
        rw [hd] at h2
        simpa using h2
      show String.mk (restRev.reverse ++
        ('.' :: (s.data.reverse.takeWhile (fun c => decide (c ≠ '.'))).reverse)) = s
      rw [hdata]
    · injection hsp with h1 h2
      subst h1; subst h2
      simp

/-- C2 (amended): the generated design id is the first non-colliding
candidate in the sequence `slug`, `slug_1`, `slug_2`, …, where the slug is
the base name with every character that is not alphanumeric, a dash or an
underscore removed, then leading and trailing dashes/underscores stripped,
and the empty result replaced by `"design"`. -/
theorem claim_C2 (baseName : String) (existing : List String) :
    ∃ k, generate_design_id baseName existing = idCand (pySlug baseName) k ∧
      idCand (pySlug baseName) k ∉ existing ∧
      ∀ i < k, idCand (pySlug baseName) i ∈ existing :=
  freshFrom_spec existing (idCand (pySlug baseName)) (idCand_inj (pySlug baseName))

/-- C2 counterexample: the claim says the id is the base name with only the
character filter applied (defaulting to `"design"`), with no other
transformation; but for base name `"-a-"` with no existing ids the code
yields `"a"` — the dashes survive the filter yet are stripped from the
ends. -/
theorem claim_C2_counterexample :
    generate_design_id "-a-" [] = "a" ∧ specSlug "-a-" = "-a-" ∧
    generate_design_id "-a-" [] ≠ specSlug "-a-" := by
  refine ⟨by decide, by decide, by decide⟩

/-- C2 witness: the amended characterisation applied to a concrete base name
and empty id set. -/
theorem claim_C2_witness :
    ∃ k, generate_design_id "Logo File" ["x"] = idCand (pySlug "Logo File") k ∧
      idCand (pySlug "Logo File") k ∉ ["x"] ∧
      ∀ i < k, idCand (pySlug "Logo File") i ∈ ["x"] :=
  claim_C2 "Logo File" ["x"]

/-! ## The upload handler (claim C1) -/

theorem lookupA_append_left {α : Type} (m l2 : List (String × α)) (k : String)
    (r : α) (h : lookupA m k = some r) : lookupA (m ++ l2) k = some r := by
  induction m with
  | nil => simp [lookupA] at h
  | cons kv rest ih =>
    simp only [lookupA, List.cons_append] at h ⊢
    by_cases hk : kv.1 = k
    · rwa [if_pos hk] at h ⊢
    · rw [if_neg hk] at h ⊢
      exact ih h

theorem lookupA_append_fresh {α : Type} (m : List (String × α)) (k : String)
    (v : α) (h : k ∉ m.map (fun kv => kv.1)) :
    lookupA (m ++ [(k, v)]) k = some v := by
  induction m with
  | nil => simp [lookupA]
  | cons kv rest ih =>
    simp only [List.map_cons, List.mem_cons] at h
    push_neg at h
    simp only [List.cons_append, lookupA]
    rw [if_neg (fun e => h.1 e.symm)]
    exact ih h.2

theorem generate_design_id_fresh (baseName : String) (existing : List String) :
    generate_design_id baseName existing ∉ existing := by
  obtain ⟨j, heq, hfree, -⟩ := claim_C2 baseName existing
  rw [heq]
  exact hfree

theorem freshFrom_fileCand_fresh (fs : List String) (raw : String) :
    freshFrom fs (fileCand raw (pySplitext raw).1 (pySplitext raw).2) ∉ fs := by
  obtain ⟨j, heq, hfree, -⟩ := freshFrom_spec fs
    (fileCand raw (pySplitext raw).1 (pySplitext raw).2)
    (fileCand_inj raw (pySplitext raw).1 (pySplitext raw).2
      (pySplitext_concat raw).symm)
  rw [heq]
  exact hfree

theorem saveFiles_spec (writeOk : String → Bool) :
    ∀ (items : List FileItem) (fs : List String),
    (saveFiles writeOk items fs).1.Nodup ∧
    ∀ s ∈ (saveFiles writeOk items fs).1, s ∉ fs := by
  intro items
  induction items with
  | nil =>
    intro fs
    exact ⟨List.nodup_nil, by simp [saveFiles]⟩
  | cons fi rest ih =>
    intro fs
    simp only [saveFiles]
    by_cases hw : writeOk (freshFrom fs (fileCand (pyBasename fi.filename)
        (pySplitext (pyBasename fi.filename)).1
        (pySplitext (pyBasename fi.filename)).2)) = true
    · rw [if_pos hw]
      obtain ⟨hnd, hnotin⟩ := ih (freshFrom fs (fileCand (pyBasename fi.filename)
        (pySplitext (pyBasename fi.filename)).1
        (pySplitext (pyBasename fi.filename)).2) :: fs)
      have hfresh := freshFrom_fileCand_fresh fs (pyBasename fi.filename)
      constructor
      · refine List.nodup_cons.mpr ⟨?_, hnd⟩
        intro hmem
        exact (hnotin _ hmem) (List.mem_cons_self _ _)
      · intro s hs
        rcases List.mem_cons.mp hs with rfl | hs2
        · exact hfresh
        · intro hsfs
          exact (hnotin s hs2) (List.mem_cons_of_mem _ hsfs)
    · rw [if_neg hw]
      exact ih fs

/-- C1 (amended): for a POST /upload carrying at least one valid file part
under field `file` (or the fallback `design`), with N ≥ 1 of the files
written successfully, exactly one new design record is appended to the
store, keyed by the id generated from the first file's base name; its image
list is exactly the list of saved filenames in request order — pairwise
distinct and not colliding with any pre-existing file — its comment list is
empty, all pre-existing design records are unchanged, and the response is
303.  When every write fails (N = 0) the code adds no record at all — the
store is unchanged and the response is still 303 (this is the one point
where the original claim, which asserted a record with the N = 0 saved
filenames, fails). -/
theorem claim_C1 :
    (∀ (form : List (String × FormVal)) (ds : Designs) (fs : List String)
       (writeOk : String → Bool) (v : FormVal) (i0 : FileItem) (rest : List FileItem),
      pyOr (lookupA form "file") (lookupA form "design") = some v →
      pyTruthy v = true →
      (toItems v).filterMap asFileItem = i0 :: rest →
      (saveFiles writeOk (i0 :: rest) fs).1 ≠ [] →
      handle_upload form ds fs writeOk =
        ⟨303, ds ++ [(generate_design_id (pySplitext (pyBasename i0.filename)).1
            (ds.map (fun kv => kv.1)),
          ⟨(saveFiles writeOk (i0 :: rest) fs).1.map JVal.str, []⟩)],
          (saveFiles writeOk (i0 :: rest) fs).2⟩ ∧
      generate_design_id (pySplitext (pyBasename i0.filename)).1
        (ds.map (fun kv => kv.1)) ∉ ds.map (fun kv => kv.1) ∧
      lookupA (handle_upload form ds fs writeOk).designs
        (generate_design_id (pySplitext (pyBasename i0.filename)).1
          (ds.map (fun kv => kv.1))) =
        some ⟨(saveFiles writeOk (i0 :: rest) fs).1.map JVal.str, []⟩ ∧
      (∀ (k : String) (r : DesignRecord), lookupA ds k = some r →
        lookupA (handle_upload form ds fs writeOk).designs k = some r) ∧
      (saveFiles writeOk (i0 :: rest) fs).1.Nodup ∧
      (∀ s ∈ (saveFiles writeOk (i0 :: rest) fs).1, s ∉ fs)) ∧
    (∀ (form : List (String × FormVal)) (ds : Designs) (fs : List String)
       (writeOk : String → Bool) (v : FormVal) (i0 : FileItem) (rest : List FileItem),
      pyOr (lookupA form "file") (lookupA form "design") = some v →
      pyTruthy v = true →
      (toItems v).filterMap asFileItem = i0 :: rest →
      (saveFiles writeOk (i0 :: rest) fs).1 = [] →
      handle_upload form ds fs writeOk =
        ⟨303, ds, (saveFiles writeOk (i0 :: rest) fs).2⟩) := by
  constructor
  · intro form ds fs writeOk v i0 rest hor htruthy hitems hsaved
    have hres : handle_upload form ds fs writeOk =
        ⟨303, ds ++ [(generate_design_id (pySplitext (pyBasename i0.filename)).1
            (ds.map (fun kv => kv.1)),
          ⟨(saveFiles writeOk (i0 :: rest) fs).1.map JVal.str, []⟩)],
          (saveFiles writeOk (i0 :: rest) fs).2⟩ := by
      have hstep : handle_upload form ds fs writeOk =
          uploadWithItems ds fs writeOk ((toItems v).filterMap asFileItem) := by
        unfold handle_upload
        rw [hor]
        simp [htruthy]
      rw [hstep, hitems]
      simp only [uploadWithItems]
      rw [if_neg (by simp [List.isEmpty_iff, hsaved])]
    obtain ⟨hnd, hnotin⟩ := saveFiles_spec writeOk (i0 :: rest) fs
    have hfreshid := generate_design_id_fresh
      (pySplitext (pyBasename i0.filename)).1 (ds.map (fun kv => kv.1))
    refine ⟨hres, hfreshid, ?_, ?_, hnd, hnotin⟩
    · rw [hres]
      exact lookupA_append_fresh ds _ _ hfreshid
    · intro k r hk
      rw [hres]
      exact lookupA_append_left ds _ k r hk
  · intro form ds fs writeOk v i0 rest hor htruthy hitems hsaved
    have hstep : handle_upload form ds fs writeOk =
        uploadWithItems ds fs writeOk ((toItems v).filterMap asFileItem) := by
      unfold handle_upload
      rw [hor]
      simp [htruthy]
    rw [hstep, hitems]
    simp only [uploadWithItems]
    rw [if_pos (by simp [List.isEmpty_iff, hsaved])]

/-- C1 counterexample: a request with one perfectly valid file part whose
single write fails.  The claim as stated (quantifying over the number N of
successfully written files, here N = 0) still demands that exactly one new
design record be added; the code adds none — the store stays empty — while
answering 303. -/
theorem claim_C1_counterexample :
    ((toItems (FormVal.file ⟨"logo.png", [137]⟩)).filterMap asFileItem).length = 1 ∧
    (handle_upload [("file", FormVal.file ⟨"logo.png", [137]⟩)] [] []
      (fun _ => false)).status = 303 ∧
    (handle_upload [("file", FormVal.file ⟨"logo.png", [137]⟩)] [] []
      (fun _ => false)).designs = [] :=
  ⟨rfl, rfl, rfl⟩

/-- C1 witness: a two-file upload into a store already holding the id
`logo` and a directory already holding `logo.png`, with every write
succeeding. -/
theorem claim_C1_witness :
    handle_upload [("file", FormVal.list [FormVal.file ⟨"logo.png", [1]⟩,
        FormVal.file ⟨"logo.txt", [2]⟩])]
      [("logo", ⟨[.str "logo.png"], []⟩)] ["logo.png"] (fun _ => true) =
      ⟨303, [("logo", ⟨[.str "logo.png"], []⟩)] ++
        [(generate_design_id (pySplitext (pyBasename
            (⟨"logo.png", [1]⟩ : FileItem).filename)).1
            (([("logo", ⟨[.str "logo.png"], []⟩)] : Designs).map (fun kv => kv.1)),
          ⟨(saveFiles (fun _ => true) [⟨"logo.png", [1]⟩, ⟨"logo.txt", [2]⟩]
              ["logo.png"]).1.map JVal.str, []⟩)],
        (saveFiles (fun _ => true) [⟨"logo.png", [1]⟩, ⟨"logo.txt", [2]⟩]
          ["logo.png"]).2⟩ ∧
    generate_design_id (pySplitext (pyBasename
        (⟨"logo.png", [1]⟩ : FileItem).filename)).1
        (([("logo", ⟨[.str "logo.png"], []⟩)] : Designs).map (fun kv => kv.1)) ∉
      ([("logo", ⟨[.str "logo.png"], []⟩)] : Designs).map (fun kv => kv.1) ∧
    lookupA (handle_upload [("file", FormVal.list [FormVal.file ⟨"logo.png", [1]⟩,
        FormVal.file ⟨"logo.txt", [2]⟩])]
        [("logo", ⟨[.str "logo.png"], []⟩)] ["logo.png"] (fun _ => true)).designs
      (generate_design_id (pySplitext (pyBasename
          (⟨"logo.png", [1]⟩ : FileItem).filename)).1
        (([("logo", ⟨[.str "logo.png"], []⟩)] : Designs).map (fun kv => kv.1))) =
      some ⟨(saveFiles (fun _ => true) [⟨"logo.png", [1]⟩, ⟨"logo.txt", [2]⟩]
        ["logo.png"]).1.map JVal.str, []⟩ ∧
    (∀ (k : String) (r : DesignRecord),
      lookupA ([("logo", ⟨[.str "logo.png"], []⟩)] : Designs) k = some r →
      lookupA (handle_upload [("file", FormVal.list [FormVal.file ⟨"logo.png", [1]⟩,
          FormVal.file ⟨"logo.txt", [2]⟩])]
          [("logo", ⟨[.str "logo.png"], []⟩)] ["logo.png"] (fun _ => true)).designs
        k = some r) ∧
    (saveFiles (fun _ => true) [⟨"logo.png", [1]⟩, ⟨"logo.txt", [2]⟩]
      ["logo.png"]).1.Nodup ∧
    (∀ s ∈ (saveFiles (fun _ => true) [⟨"logo.png", [1]⟩, ⟨"logo.txt", [2]⟩]
      ["logo.png"]).1, s ∉ ["logo.png"]) :=
  claim_C1.1 [("file", FormVal.list [FormVal.file ⟨"logo.png", [1]⟩,
      FormVal.file ⟨"logo.txt", [2]⟩])]
    [("logo", ⟨[.str "logo.png"], []⟩)] ["logo.png"] (fun _ => true)
    (FormVal.list [FormVal.file ⟨"logo.png", [1]⟩, FormVal.file ⟨"logo.txt", [2]⟩])
    ⟨"logo.png", [1]⟩ [⟨"logo.txt", [2]⟩] rfl rfl rfl (by decide)

/-! ## The multipart parser (claim C9) -/

theorem lookupA_mem {α : Type} (m : List (String × α)) (k : String) (r : α)
    (h : lookupA m k = some r) : (k, r) ∈ m := by
  induction m with
  | nil => simp [lookupA] at h
  | cons kv rest ih =>
    simp only [lookupA] at h
    by_cases hk : kv.1 = k
    · rw [if_pos hk] at h
      injection h with h2
      have he : (k, r) = kv := by rw [← hk, ← h2]
      rw [he]
      exact List.mem_cons_self _ _
    · rw [if_neg hk] at h
      exact List.mem_cons_of_mem _ (ih h)

theorem updAssoc_mem {α : Type} (m : List (String × α)) (k1 : String)
    (f : α → α) (k : String) (v : α) (h : (k, v) ∈ updAssoc m k1 f) :
    (k, v) ∈ m ∨ (k = k1 ∧ ∃ w, (k1, w) ∈ m ∧ v = f w) := by
  simp only [updAssoc, List.mem_map] at h
  obtain ⟨kv, hkv, heq⟩ := h
  by_cases hk : kv.1 = k1
  · rw [if_pos hk] at heq
    right
    have h1 : kv.1 = k := congrArg Prod.fst heq
    have h2 : f kv.2 = v := congrArg Prod.snd heq
    refine ⟨by rw [← h1, hk], kv.2, ?_, h2.symm⟩
    rw [← hk]
    exact hkv
  · rw [if_neg hk] at heq
    left
    rw [← heq]
    exact hkv

theorem strMemV_of_strAtom (s : String) (v : FormVal) (h : strAtom s v) :
    strMemV s v := by
  cases v with
  | str s2 => exact h
  | pynone => exact absurd h (by simp [strAtom])
  | file fi => exact absurd h (by simp [strAtom])
  | list l => exact absurd h (by simp [strAtom])

theorem addField_str (acc : List (String × FormVal)) (k1 : String) (w : FormVal)
    (k : String) (v : FormVal) (s : String)
    (hmem : (k, v) ∈ addField acc k1 w) (hstr : strMemV s v) :
    (∃ v1, (k, v1) ∈ acc ∧ strMemV s v1) ∨ (k = k1 ∧ strMemV s w) := by
  unfold addField at hmem
  cases hl : lookupA acc k1 with
  | none =>
    rw [hl] at hmem
    rcases List.mem_append.mp hmem with hacc | hnew
    · exact Or.inl ⟨v, hacc, hstr⟩
    · simp only [List.mem_singleton, Prod.mk.injEq] at hnew
      right
      rw [← hnew.2]
      exact ⟨hnew.1, hstr⟩
  | some v0 =>
    rw [hl] at hmem
    cases v0 with
    | pynone =>
      rcases updAssoc_mem acc k1 _ k v hmem with hacc | ⟨hk, w2, hw2, hveq⟩
      · exact Or.inl ⟨v, hacc, hstr⟩
      · subst hk
        rw [hveq] at hstr
        exact Or.inr ⟨rfl, hstr⟩
    | list l =>
      rcases updAssoc_mem acc k1 _ k v hmem with hacc | ⟨hk, w2, hw2, hveq⟩
      · exact Or.inl ⟨v, hacc, hstr⟩
      · subst hk
        rw [hveq] at hstr
        simp only [strMemV, List.mem_append] at hstr
        obtain ⟨x, hx, hatom⟩ := hstr
        rcases hx with hxl | hxw
        · exact Or.inl ⟨.list l, lookupA_mem acc _ _ hl, ⟨x, hxl, hatom⟩⟩
        · simp only [List.mem_singleton] at hxw
          subst hxw
          exact Or.inr ⟨rfl, strMemV_of_strAtom s x hatom⟩
    | str s0 =>
      rcases updAssoc_mem acc k1 _ k v hmem with hacc | ⟨hk, w2, hw2, hveq⟩
      · exact Or.inl ⟨v, hacc, hstr⟩
      · subst hk
        rw [hveq] at hstr
        simp only [strMemV, List.mem_cons] at hstr
        obtain ⟨x, hx, hatom⟩ := hstr
        rcases hx with hx0 | hxw | hnil
        · subst hx0
          exact Or.inl ⟨x, hw2, strMemV_of_strAtom s x hatom⟩
        · subst hxw
          exact Or.inr ⟨rfl, strMemV_of_strAtom s x hatom⟩
        · simp at hnil
    | file fi =>
      rcases updAssoc_mem acc k1 _ k v hmem with hacc | ⟨hk, w2, hw2, hveq⟩
      · exact Or.inl ⟨v, hacc, hstr⟩
      · subst hk
        rw [hveq] at hstr
        simp only [strMemV, List.mem_cons] at hstr
        obtain ⟨x, hx, hatom⟩ := hstr
        rcases hx with hx0 | hxw | hnil
        · subst hx0
          exact Or.inl ⟨x, hw2, strMemV_of_strAtom s x hatom⟩
        · subst hxw
          exact Or.inr ⟨rfl, strMemV_of_strAtom s x hatom⟩
        · simp at hnil

theorem partItem_val_cases (p : Part) (kv : String × FormVal)
    (h : partItem p = some kv) :
    (∃ s2, kv.2 = .str s2) ∨ kv.2 = .pynone ∨ ∃ fi, kv.2 = .file fi := by
  obtain ⟨disp, pname, pfile, ppay⟩ := p
  unfold partItem at h
  split at h
  · simp at h
  · split at h
    · simp at h
    · split at h
      · simp at h
      · split at h
        · injection h with h2
          exact Or.inr (Or.inr ⟨_, (congrArg Prod.snd h2).symm⟩)
        · split at h
          · injection h with h2
            exact Or.inl ⟨_, (congrArg Prod.snd h2).symm⟩
          · injection h with h2
            exact Or.inr (Or.inl (congrArg Prod.snd h2).symm)

theorem partItem_str_inv (p : Part) (k s : String)
    (h : partItem p = some (k, .str s)) :
    ∃ bs, p.payload = some bs ∧ s = pyDecodeUtf8Ignore bs := by
  obtain ⟨disp, pname, pfile, ppay⟩ := p
  unfold partItem at h
  split at h
  · simp at h
  · split at h
    · simp at h
    · split at h
      · simp at h
      · split at h
        · simp at h
        · split at h
          · rename_i bs heq
            injection h with h2
            have hs := congrArg Prod.snd h2
            simp only [FormVal.str.injEq] at hs
            exact ⟨bs, heq, hs.symm⟩
          · simp at h

theorem partItem_str_of_strMem (p : Part) (k s : String) (kv : String × FormVal)
    (hpi : partItem p = some kv) (hk : k = kv.1) (hstr : strMemV s kv.2) :
    partItem p = some (k, .str s) := by
  obtain ⟨k2, v2⟩ := kv
  simp only at hk hstr
  subst hk
  rcases partItem_val_cases p (k, v2) hpi with ⟨s2, hv⟩ | hv | ⟨fi, hv⟩
  · simp only at hv
    subst hv
    simp only [strMemV, strAtom] at hstr
    subst hstr
    exact hpi
  · simp only at hv
    subst hv
    exact absurd hstr (by simp [strMemV, strAtom])
  · simp only at hv
    subst hv
    exact absurd hstr (by simp [strMemV, strAtom])

/-- C9 (amended): the parser returns each non-file form field as the UTF-8
decoding of its payload bytes in which undecodable byte sequences are
*dropped* (`errors=ignore`), never a failure: a `form-data` part with a
name, no filename and a byte payload becomes exactly the ignore-decoded
string, and every string value found anywhere in the parsed form is the
ignore-decoding of some such part's payload. -/
theorem claim_C9 :
    (∀ (p : Part) (n : String) (bs : List Nat),
      containsSub p.disposition "form-data" = true → p.name = some n →
      n ≠ "" → p.filename = none → p.payload = some bs →
      partItem p = some (n, .str (pyDecodeUtf8Ignore bs))) ∧
    (∀ (parts : List Part) (k : String) (v : FormVal) (s : String),
      (k, v) ∈ parse_multipart parts → strMemV s v →
      ∃ p ∈ parts, partItem p = some (k, .str s) ∧
        ∃ bs, p.payload = some bs ∧ s = pyDecodeUtf8Ignore bs) := by
  constructor
  · intro p n bs hdisp hn hne hf hp
    obtain ⟨disp, pname, pfile, ppay⟩ := p
    simp only at hdisp hn hf hp
    subst hn
    subst hf
    subst hp
    simp [partItem, hdisp, hne]
  · have hacc : ∀ (parts : List Part) (acc : List (String × FormVal))
        (k : String) (v : FormVal) (s : String),
        (k, v) ∈ parts.foldl (fun acc p =>
          match partItem p with
          | none => acc
          | some kv => addField acc kv.1 kv.2) acc →
        strMemV s v →
        (∃ v1, (k, v1) ∈ acc ∧ strMemV s v1) ∨
          ∃ p ∈ parts, partItem p = some (k, .str s) := by
      intro parts
      induction parts with
      | nil => intro acc k v s hmem hstr; exact Or.inl ⟨v, hmem, hstr⟩
      | cons p rest ih =>
        intro acc k v s hmem hstr
        simp only [List.foldl_cons] at hmem
        cases hpi : partItem p with
        | none =>
          rw [hpi] at hmem
          rcases ih acc k v s hmem hstr with h | ⟨p2, hp2, h2⟩
          · exact Or.inl h
          · exact Or.inr ⟨p2, List.mem_cons_of_mem _ hp2, h2⟩
        | some kv0 =>
          rw [hpi] at hmem
          rcases ih (addField acc kv0.1 kv0.2) k v s hmem hstr with
            ⟨v1, hv1mem, hv1str⟩ | ⟨p2, hp2, h2⟩
          · rcases addField_str acc kv0.1 kv0.2 k v1 s hv1mem hv1str with
              hold | ⟨hkeq, hstrw⟩
            · exact Or.inl hold
            · exact Or.inr ⟨p, List.mem_cons_self _ _,
                partItem_str_of_strMem p k s kv0 hpi hkeq hstrw⟩
          · exact Or.inr ⟨p2, List.mem_cons_of_mem _ hp2, h2⟩
    intro parts k v s hmem hstr
    rcases hacc parts [] k v s hmem hstr with ⟨v1, hv1, -⟩ | ⟨p, hp, hpi⟩
    · simp at hv1
    · exact ⟨p, hp, hpi, partItem_str_inv p k s hpi⟩

/-- C9 counterexample: for the invalid byte 0xFF the code's `errors=ignore`
decoding drops the byte (empty field value), while the replacement decoding
the claim describes would produce U+FFFD — the field value is not the
replacement decoding. -/
theorem claim_C9_counterexample :
    parse_multipart [⟨"form-data", some "note", none, some [255]⟩] =
      [("note", .str (pyDecodeUtf8Ignore [255]))] ∧
    pyDecodeUtf8Ignore [255] = "" ∧
    specDecodeUtf8Replace [255] = String.mk ['�'] ∧
    pyDecodeUtf8Ignore [255] ≠ specDecodeUtf8Replace [255] :=
  ⟨rfl, rfl, rfl, by decide⟩

/-- C9 witness: a text part with a valid byte followed by an invalid byte
decodes (totally) to the one-character string. -/
theorem claim_C9_witness :
    partItem ⟨"form-data", some "a", none, some [104, 255]⟩ =
      some ("a", .str (pyDecodeUtf8Ignore [104, 255])) ∧
    ∃ p ∈ ([⟨"form-data", some "a", none, some [104, 255]⟩] : List Part),
      partItem p = some ("a", FormVal.str "h") ∧
      ∃ bs, p.payload = some bs ∧ "h" = pyDecodeUtf8Ignore bs :=
  ⟨claim_C9.1 ⟨"form-data", some "a", none, some [104, 255]⟩ "a" [104, 255]
      rfl rfl (by decide) rfl rfl,
   claim_C9.2 [⟨"form-data", some "a", none, some [104, 255]⟩] "a"
      (FormVal.str "h") "h" (by exact List.mem_singleton.mpr rfl) rfl⟩

/-! ## The HTML renderer (claim C8) -/

theorem escCharL_noAngle (c : Char) : ∀ d ∈ escCharL c, d ≠ '<' ∧ d ≠ '>' := by
  unfold escCharL
  split_ifs with h1 h2 h3 h4 h5
  · decide
  · decide
  · decide
  · decide
  · decide
  · intro d hd
    simp only [List.mem_singleton] at hd
    subst hd
    exact ⟨h2, h3⟩

theorem pyEscape_noAngle (s : String) : noAngle (pyEscape s) = true := by
  unfold noAngle pyEscape
  rw [List.all_eq_true]
  intro x hx
  have hx2 : x ∈ s.data.flatMap escCharL := hx
  obtain ⟨c, hc, hd⟩ := List.mem_flatMap.mp hx2
  have hne := escCharL_noAngle c x hd
  simp [hne.1, hne.2]

theorem commentsLinesAux_some (did : String) (cs : List CommentRec)
    (h : ∀ c ∈ cs, (match c.text with | JVal.str _ => true | _ => false) = true) :
    ∀ i : Nat, ∃ out, commentsLinesAux did i cs = some out := by
  induction cs with
  | nil => intro i; exact ⟨[], rfl⟩
  | cons c rest ih =>
    intro i
    have hc := h c (List.mem_cons_self _ _)
    obtain ⟨t, ht⟩ : ∃ t, c.text = .str t := by
      cases hcc : c.text <;> rw [hcc] at hc <;> simp at hc
      exact ⟨_, rfl⟩
    obtain ⟨out, hout⟩ := ih (fun c2 hc2 => h c2 (List.mem_cons_of_mem _ hc2)) (i + 1)
    simp only [commentsLinesAux, commentLines, ht, hout]
    exact ⟨_, rfl⟩

theorem designLines_some (did : String) (r : DesignRecord)
    (h : strishRecord r = true) : ∃ dl, designLines did r = some dl := by
  simp only [strishRecord, Bool.and_eq_true, List.all_eq_true] at h
  obtain ⟨himg, hcom⟩ := h
  obtain ⟨imgs, himgs⟩ := optMapList_isSome imgLineOf r.images (by
    intro im him
    have him2 := himg im him
    cases im <;> simp [imgLineOf] at him2 ⊢)
  obtain ⟨cls, hcls⟩ := commentsLinesAux_some did r.comments (fun c hc => hcom c hc) 0
  simp only [designLines, himgs, hcls]
  exact ⟨_, rfl⟩

theorem designsLinesAux_some (ds : Designs)
    (h : ∀ kv ∈ ds, strishRecord kv.2 = true) :
    ∃ body, designsLinesAux ds = some body := by
  induction ds with
  | nil => exact ⟨[], rfl⟩
  | cons kv rest ih =>
    obtain ⟨did2, r2⟩ := kv
    obtain ⟨dl, hdl⟩ := designLines_some did2 r2 (h _ (List.mem_cons_self _ _))
    obtain ⟨body, hbody⟩ := ih (fun kv2 hkv2 => h kv2 (List.mem_cons_of_mem _ hkv2))
    simp only [designsLinesAux, hdl, hbody]
    exact ⟨_, rfl⟩

theorem designsLinesAux_mem :
    ∀ (ds : Designs) (body : List String), designsLinesAux ds = some body →
    ∀ (did : String) (r : DesignRecord), (did, r) ∈ ds →
    ∃ dl, designLines did r = some dl ∧ ∀ x ∈ dl, x ∈ body := by
  intro ds
  induction ds with
  | nil => intro body h did r hmem; simp at hmem
  | cons kv rest ih =>
    intro body h did r hmem
    obtain ⟨did2, r2⟩ := kv
    simp only [designsLinesAux] at h
    cases hdl : designLines did2 r2 with
    | none => rw [hdl] at h; simp at h
    | some dl =>
      rw [hdl] at h
      cases hbody : designsLinesAux rest with
      | none => rw [hbody] at h; simp at h
      | some body2 =>
        rw [hbody] at h
        simp only [Option.some.injEq] at h
        subst h
        rcases List.mem_cons.mp hmem with heq | hmem2
        · injection heq with e1 e2
          subst e1
          subst e2
          exact ⟨dl, hdl, fun x hx => List.mem_append.mpr (Or.inl hx)⟩
        · obtain ⟨dl2, hdl2, hsub⟩ := ih body2 hbody did r hmem2
          exact ⟨dl2, hdl2, fun x hx => List.mem_append.mpr (Or.inr (hsub x hx))⟩

theorem commentsLinesAux_mem (did : String) :
    ∀ (cs : List CommentRec) (i : Nat) (out : List String),
    commentsLinesAux did i cs = some out → ∀ c ∈ cs,
    ∃ (j : Nat) (ls : List String), commentLines did j c = some ls ∧
      ∀ x ∈ ls, x ∈ out := by
  intro cs
  induction cs with
  | nil => intro i out h c hc; simp at hc
  | cons c0 rest ih =>
    intro i out h c hc
    simp only [commentsLinesAux] at h
    cases hc0 : commentLines did i c0 with
    | none => rw [hc0] at h; simp at h
    | some ls0 =>
      rw [hc0] at h
      cases hrest : commentsLinesAux did (i + 1) rest with
      | none => rw [hrest] at h; simp at h
      | some out2 =>
        rw [hrest] at h
        simp only [Option.some.injEq] at h
        subst h
        rcases List.mem_cons.mp hc with rfl | hc2
        · exact ⟨i, ls0, hc0, fun x hx => List.mem_append.mpr (Or.inl hx)⟩
        · obtain ⟨j, ls, hls, hsub⟩ := ih (i + 1) out2 hrest c hc2
          exact ⟨j, ls, hls, fun x hx => List.mem_append.mpr (Or.inr (hsub x hx))⟩

theorem commentLines_textLine (did : String) (j : Nat) (c : CommentRec)
    (t : String) (ht : c.text = .str t) (ls : List String)
    (h : commentLines did j c = some ls) : commentTextLine t ∈ ls := by
  simp only [commentLines, ht, Option.some.injEq] at h
  subst h
  exact List.mem_append.mpr (Or.inl (List.mem_append.mpr (Or.inl
    (List.mem_singleton.mpr rfl))))

theorem commentLines_replyLine (did : String) (j : Nat) (c : CommentRec)
    (rep : JVal) (hrep : rep ∈ c.replies) (ls : List String)
    (h : commentLines did j c = some ls) :
    ("              <li>" ++ pyEscape (pyStr rep) ++ "</li>") ∈ ls := by
  cases ht : c.text with
  | str t =>
    simp only [commentLines, ht, Option.some.injEq] at h
    subst h
    refine List.mem_append.mpr (Or.inl (List.mem_append.mpr (Or.inr ?_)))
    unfold replyBlock
    rw [if_neg (by simp [List.isEmpty_iff]; exact List.ne_nil_of_mem hrep)]
    refine List.mem_append.mpr (Or.inl (List.mem_append.mpr (Or.inr ?_)))
    exact List.mem_map.mpr ⟨rep, hrep, rfl⟩
  | null => simp [commentLines, ht] at h
  | bool b => simp [commentLines, ht] at h
  | num n => simp [commentLines, ht] at h
  | arr xs => simp [commentLines, ht] at h
  | obj o => simp [commentLines, ht] at h

theorem designLines_pieces (did : String) (r : DesignRecord) (dl : List String)
    (h : designLines did r = some dl) :
    (∃ imgs, optMapList imgLineOf r.images = some imgs ∧ ∀ x ∈ imgs, x ∈ dl) ∧
    (∃ cls, commentsLinesAux did 0 r.comments = some cls ∧ ∀ x ∈ cls, x ∈ dl) := by
  unfold designLines at h
  cases himgs : optMapList imgLineOf r.images with
  | none => rw [himgs] at h; simp at h
  | some imgs =>
    rw [himgs] at h
    cases hcls : commentsLinesAux did 0 r.comments with
    | none => rw [hcls] at h; simp at h
    | some cls =>
      rw [hcls] at h
      simp only [Option.some.injEq] at h
      subst h
      constructor
      · refine ⟨imgs, rfl, fun x hx => ?_⟩
        simp only [List.mem_append]
        tauto
      · refine ⟨cls, rfl, fun x hx => ?_⟩
        have hne : ¬ r.comments.isEmpty = true := by
          intro hce
          have hcnil : r.comments = [] := by
            cases hcc : r.comments with
            | nil => rfl
            | cons a b => rw [hcc] at hce; simp at hce
          rw [hcnil] at hcls
          simp only [commentsLinesAux, Option.some.injEq] at hcls
          rw [← hcls] at hx
          simp at hx
        rw [if_neg hne]
        simp only [List.mem_append]
        tauto

/-- C8: for every store state whose image values and comment texts are
strings (which is what the store code produces), the index page renders, and
every comment body, every reply body and every image filename used as alt
text is embedded through `html.escape`: the escaped comment line, reply line
and image line occur in the rendered lines, the escape of any string
contains no raw `<` or `>` character, and in particular a comment text
`<script>` is rendered as `&lt;script&gt;`, never as a raw tag. -/
theorem claim_C8 :
    ∀ ds : Designs, (∀ kv ∈ ds, strishRecord kv.2 = true) →
    ∃ lines, indexLines ds = some lines ∧
      renderIndex ds = some (String.intercalate "\n" lines) ∧
      (∀ (did : String) (r : DesignRecord), (did, r) ∈ ds →
        ∀ c ∈ r.comments, ∀ t : String, c.text = .str t →
        commentTextLine t ∈ lines) ∧
      (∀ (did : String) (r : DesignRecord), (did, r) ∈ ds →
        ∀ c ∈ r.comments, ∀ rep ∈ c.replies,
        ("              <li>" ++ pyEscape (pyStr rep) ++ "</li>") ∈ lines) ∧
      (∀ (did : String) (r : DesignRecord), (did, r) ∈ ds →
        ∀ im ∈ r.images, ∀ s2 : String, im = .str s2 → imgLine s2 ∈ lines) ∧
      (∀ t : String, noAngle (pyEscape t) = true) ∧
      pyEscape "<script>" = "&lt;script&gt;" := by
  intro ds hwf
  obtain ⟨body, hbody⟩ := designsLinesAux_some ds hwf
  refine ⟨headerLines ++
    (if ds.isEmpty then
      ["    <p class=\"no-designs\">No designs uploaded yet. Use the form above or drag files into the drop zone to add the first logo design.</p>"]
     else []) ++
    body ++ ["  </section>"] ++ scriptLines ++ ["</body>", "</html>"],
    ?_, ?_, ?_, ?_, ?_, pyEscape_noAngle, rfl⟩
  · simp only [indexLines, hbody, Option.map_some']
  · simp only [renderIndex, indexLines, hbody, Option.map_some']
  · intro did r hmem c hc t ht
    obtain ⟨dl, hdl, hdlsub⟩ := designsLinesAux_mem ds body hbody did r hmem
    obtain ⟨-, cls, hcls, hclssub⟩ := designLines_pieces did r dl hdl
    obtain ⟨j, ls, hls, hlssub⟩ := commentsLinesAux_mem did r.comments 0 cls hcls c hc
    have hx := commentLines_textLine did j c t ht ls hls
    have hxb := hdlsub _ (hclssub _ (hlssub _ hx))
    simp only [List.mem_append]
    tauto
  · intro did r hmem c hc rep hrep
    obtain ⟨dl, hdl, hdlsub⟩ := designsLinesAux_mem ds body hbody did r hmem
    obtain ⟨-, cls, hcls, hclssub⟩ := designLines_pieces did r dl hdl
    obtain ⟨j, ls, hls, hlssub⟩ := commentsLinesAux_mem did r.comments 0 cls hcls c hc
    have hx := commentLines_replyLine did j c rep hrep ls hls
    have hxb := hdlsub _ (hclssub _ (hlssub _ hx))
    simp only [List.mem_append]
    tauto
  · intro did r hmem im him s2 hs2
    obtain ⟨dl, hdl, hdlsub⟩ := designsLinesAux_mem ds body hbody did r hmem
    obtain ⟨⟨imgs, himgs, himgssub⟩, -⟩ := designLines_pieces did r dl hdl
    have hx : imgLine s2 ∈ imgs := by
      refine optMapList_mem imgLineOf r.images imgs himgs im him _ ?_
      rw [hs2]
      rfl
    have hxb := hdlsub _ (himgssub _ hx)
    simp only [List.mem_append]
    tauto

/-- C8 witness: a one-design store whose comment text is `<script>` with a
reply, rendered with the script text escaped. -/
theorem claim_C8_witness :
    ∃ lines, indexLines [("d", ⟨[.str "a.png"],
        [⟨.str "<script>", [.str "ok"]⟩]⟩)] = some lines ∧
      renderIndex [("d", ⟨[.str "a.png"], [⟨.str "<script>", [.str "ok"]⟩]⟩)] =
        some (String.intercalate "\n" lines) ∧
      (∀ (did : String) (r : DesignRecord),
        (did, r) ∈ ([("d", ⟨[.str "a.png"], [⟨.str "<script>", [.str "ok"]⟩]⟩)] : Designs) →
        ∀ c ∈ r.comments, ∀ t : String, c.text = .str t →
        commentTextLine t ∈ lines) ∧
      (∀ (did : String) (r : DesignRecord),
        (did, r) ∈ ([("d", ⟨[.str "a.png"], [⟨.str "<script>", [.str "ok"]⟩]⟩)] : Designs) →
        ∀ c ∈ r.comments, ∀ rep ∈ c.replies,
        ("              <li>" ++ pyEscape (pyStr rep) ++ "</li>") ∈ lines) ∧
      (∀ (did : String) (r : DesignRecord),
        (did, r) ∈ ([("d", ⟨[.str "a.png"], [⟨.str "<script>", [.str "ok"]⟩]⟩)] : Designs) →
        ∀ im ∈ r.images, ∀ s2 : String, im = .str s2 → imgLine s2 ∈ lines) ∧
      (∀ t : String, noAngle (pyEscape t) = true) ∧
      pyEscape "<script>" = "&lt;script&gt;" :=
  claim_C8 [("d", ⟨[.str "a.png"], [⟨.str "<script>", [.str "ok"]⟩]⟩)]
    (by intro kv hkv; simp at hkv; rw [hkv]; rfl)

end GentleSmiles
